import Mathlib

/-!
Verification of the es6-promise repository (dead-horse/es6-promise).

The development shallowly embeds the complete draft of `lib/promise.js`
(the variant with a working job queue, `then`, and reaction jobs) together
with `lib/queue.js` and the `sameValue` helper of `lib/utils.js`.

JavaScript machine values are modelled by the first-order type `Value`;
objects live in a heap indexed by natural numbers.  User-supplied callables
(executors, handlers, thenable `then` methods) are defunctionalised: an
executor is a list of synchronous calls to its resolving pair (optionally
followed by a throw), a handler is either a pure Lean function from the
settled value to a normal/thrown outcome or one of the closures the source
itself builds, and a thenable's `then` is a single call to the freshly
created resolving pair.  The process-wide job queue of `queue.js` is part
of the machine state; the external `asap` scheduling primitive is modelled
by a counter of in-flight drain requests plus an explicit `fire` step.
-/

namespace ES6Promise

/-! ### List helpers (index access and update, with their laws) -/

/-- `lget? l i` is `l[i]`: `some` element at `i`, `none` out of bounds. -/
def lget? : List α → Nat → Option α
  | [], _ => none
  | a :: _, 0 => some a
  | _ :: l, n + 1 => lget? l n

/-- `lset l i a` writes index `i` of `l`; out-of-bounds writes are no-ops. -/
def lset : List α → Nat → α → List α
  | [], _, _ => []
  | _ :: l, 0, a => a :: l
  | b :: l, n + 1, a => b :: lset l n a

/-- `lastOf l` is the final element of `l`, if any. -/
def lastOf : List α → Option α
  | [] => none
  | [a] => some a
  | _ :: b :: l => lastOf (b :: l)

theorem lget?_append_length (l : List α) (a : α) :
    lget? (l ++ [a]) l.length = some a := by
  induction l with
  | nil => rfl
  | cons b l ih => simpa [lget?] using ih

theorem lget?_append_lt (l l' : List α) (i : Nat) (h : i < l.length) :
    lget? (l ++ l') i = lget? l i := by
  induction l generalizing i with
  | nil => simp at h
  | cons b l ih =>
    cases i with
    | zero => rfl
    | succ n => simpa [lget?] using ih n (by simpa using h)

theorem lset_append_length (l : List α) (a b : α) :
    lset (l ++ [a]) l.length b = l ++ [b] := by
  induction l with
  | nil => rfl
  | cons c l ih => simpa [lset] using ih

theorem lget?_lset_self (l : List α) (i : Nat) (a : α) (h : i < l.length) :
    lget? (lset l i a) i = some a := by
  induction l generalizing i with
  | nil => simp at h
  | cons b l ih =>
    cases i with
    | zero => rfl
    | succ n => simpa [lget?, lset] using ih n (by simpa using h)

theorem lget?_lset_ne (l : List α) (i j : Nat) (a : α) (h : i ≠ j) :
    lget? (lset l i a) j = lget? l j := by
  induction l generalizing i j with
  | nil => rfl
  | cons b l ih =>
    cases i with
    | zero =>
      cases j with
      | zero => exact absurd rfl h
      | succ m => rfl
    | succ n =>
      cases j with
      | zero => rfl
      | succ m => simpa [lget?, lset] using ih n m (by omega)

theorem length_lset (l : List α) (i : Nat) (a : α) :
    (lset l i a).length = l.length := by
  induction l generalizing i with
  | nil => rfl
  | cons b l ih =>
    cases i with
    | zero => rfl
    | succ n => simpa [lset] using ih n

theorem mem_of_mem_lset {l : List α} {i : Nat} {a x : α}
    (h : x ∈ lset l i a) : x ∈ l ∨ x = a := by
  induction l generalizing i with
  | nil => simp [lset] at h
  | cons b l ih =>
    cases i with
    | zero =>
      rcases List.mem_cons.mp h with h' | h'
      · exact Or.inr h'
      · exact Or.inl (List.mem_cons_of_mem _ h')
    | succ n =>
      rcases List.mem_cons.mp h with h' | h'
      · exact Or.inl (by simp [h'])
      · rcases ih h' with h'' | h''
        · exact Or.inl (List.mem_cons_of_mem _ h'')
        · exact Or.inr h''

theorem mem_of_lget? {l : List α} {i : Nat} {a : α}
    (h : lget? l i = some a) : a ∈ l := by
  induction l generalizing i with
  | nil => simp [lget?] at h
  | cons b l ih =>
    cases i with
    | zero =>
      simp [lget?] at h
      simp [h]
    | succ n => exact List.mem_cons_of_mem _ (ih h)

theorem lastOf_mem {l : List α} {a : α} (h : lastOf l = some a) : a ∈ l := by
  induction l with
  | nil => simp [lastOf] at h
  | cons b l ih =>
    cases l with
    | nil =>
      simp [lastOf] at h
      simp [h]
    | cons c l' => exact List.mem_cons_of_mem _ (ih h)

/-! ### JavaScript values

The machine value space covers the primitives the program manipulates and
references into an object heap.  `typeError` models a freshly created
`TypeError` object as an immutable value (its `typeof` is `"object"`). -/

/-- Result of JavaScript `typeof` on the modelled value space. -/
inductive JsTy
  | tUndef
  | tObj
  | tBool
  | tNum
  | tStr
deriving DecidableEq, Repr

/-- JavaScript numbers, restricted to `NaN` and integers (no `-0`/floats;
the program compares numbers only with `===` and `Number.isNaN`). -/
inductive JsNum
  | nan
  | int (i : Int)
deriving DecidableEq, Repr

/-- A JavaScript value. -/
inductive Value
  | undef
  | nul
  | boolV (b : Bool)
  | numV (n : JsNum)
  | strV (s : String)
  | objRef (i : Nat)
  | typeError (msg : String)
deriving DecidableEq, Repr

/-- `typeof v`. `typeof null` is `"object"`, as in JavaScript. -/
def typeofV : Value → JsTy
  | .undef => .tUndef
  | .nul => .tObj
  | .boolV _ => .tBool
  | .numV _ => .tNum
  | .strV _ => .tStr
  | .objRef _ => .tObj
  | .typeError _ => .tObj

/-- JavaScript strict equality `===` on the modelled values.  `NaN` is not
equal to anything; object references compare by identity (heap index). -/
def strictEq (x y : Value) : Bool :=
  match x, y with
  | .numV .nan, _ => false
  | _, .numV .nan => false
  | _, _ => x = y

/-- `Number.isNaN`. -/
def isNaNv : Value → Bool
  | .numV .nan => true
  | _ => false

/-- JavaScript truthiness test: `!v` is true exactly on the falsy values. -/
def isFalsy : Value → Bool
  | .undef => true
  | .nul => true
  | .boolV false => true
  | .numV (.int 0) => true
  | .numV .nan => true
  | .strV "" => true
  | _ => false

/-- `exports.sameValue` of `lib/utils.js`: compares `typeof` first, then
returns `true` whenever `x` is `undefined` or `null`, handles the `NaN`
case for numbers, and otherwise falls back to `===`. -/
def sameValue (x y : Value) : Bool :=
  if typeofV x ≠ typeofV y then false
  else if x = .undef || x = .nul then true
  else if typeofV x = .tNum then
    if isNaNv x && isNaNv y then true else strictEq x y
  else strictEq x y

/-! ### The job queue of `lib/queue.js`, standalone

For claims about the queue itself, jobs are defunctionalised as
`QJob`: a job has an observable identifier and, when executed, enqueues a
fixed list of further jobs (the only queue-visible effect a promise job
has).  `QState.scheduled` counts `asap` drain requests currently in
flight; `log` records the order in which job bodies ran. -/

/-- A defunctionalised queue job: running it logs `id` and enqueues each
job in `spawns`. -/
inductive QJob
  | mk (id : Nat) (spawns : List QJob)

/-- The job's observable identifier. -/
def QJob.qid : QJob → Nat
  | .mk i _ => i

/-- The jobs this job enqueues while running. -/
def QJob.qspawns : QJob → List QJob
  | .mk _ s => s

mutual
/-- Number of jobs in the spawn tree rooted at `j` (at least 1). -/
def qsize : QJob → Nat
  | .mk _ spawns => 1 + qsizeL spawns
/-- Total number of jobs in the spawn trees of a list of jobs. -/
def qsizeL : List QJob → Nat
  | [] => 0
  | j :: rest => qsize j + qsizeL rest
end

/-- State of the `Queue` object of `lib/queue.js`, plus the observables:
in-flight `asap` requests and the execution log. -/
structure QState where
  jobs : List QJob
  running : Bool
  scheduled : Nat
  log : List Nat

/-- `Queue.prototype.enqueue`: when the queue is not running it first asks
`asap` to schedule a drain (one request per such call), then pushes the
job onto the live buffer. -/
def qenqueue (j : QJob) (st : QState) : QState :=
  let st' := if !st.running then { st with scheduled := st.scheduled + 1 } else st
  { st' with jobs := st'.jobs ++ [j] }

/-- Executing one job body: log its id, then enqueue its spawned jobs (the
queue is running at this point, so these nested `enqueue` calls do not
schedule further `asap` requests). -/
def qexec (j : QJob) (st : QState) : QState :=
  j.qspawns.foldl (fun s sj => qenqueue sj s) { st with log := st.log ++ [j.qid] }

/-- The drain loop of `Queue.prototype.run`:
`for (var i = 0, jobs = this.jobs; i < jobs.length; i++) jobs[i]();`.
`jobs` aliases the live buffer (`this.jobs` is only reassigned after the
loop), so the loop condition re-reads the growing length each iteration;
this is modelled by indexing the machine's buffer directly.  `fuel` bounds
the number of iterations (the source loop need not terminate). -/
def qdrainLoop : Nat → Nat → QState → QState
  | 0, _, st => st
  | fuel + 1, i, st =>
    match lget? st.jobs i with
    | some j => qdrainLoop fuel (i + 1) (qexec j st)
    | none => { st with jobs := [], running := false }

/-- `Queue.prototype.run`: re-entrancy guard, set `running`, iterate the
live buffer, then clear the buffer and the flag. -/
def qrun (fuel : Nat) (st : QState) : QState :=
  if st.running then st else qdrainLoop fuel 0 { st with running := true }

/-- Specification order of a drain over the live buffer: process the front
job, appending its spawns at the back (breadth-first over spawn trees). -/
def qorder : List QJob → List Nat
  | [] => []
  | j :: rest => j.qid :: qorder (rest ++ j.qspawns)
termination_by l => qsizeL l
decreasing_by
  simp only [qsizeL]
  have h1 : qsizeL (rest ++ j.qspawns) = qsizeL rest + qsizeL j.qspawns := by
    induction rest with
    | nil => simp [qsizeL]
    | cons a t ih => simp [qsizeL, ih]; omega
  have h2 : qsize j = 1 + qsizeL j.qspawns := by
    cases j; simp [qsize, QJob.qid, QJob.qspawns]
  omega

/-! ### The promise machine of `lib/promise.js`

State of a single process: an object heap (promises and plain objects),
the `alreadyResolved` records allocated by `createResolvingFunctions`,
and the process-wide `promiseJobs` queue.  `_state` transitions are
modelled with two extra states: `absent` (the own property does not exist
yet on the freshly allocated `this`) and `undefWritten` (after the
constructor's `this._state = undefined` write); both read as `undefined`
in JavaScript, but the write is observable (`hasOwnProperty`). -/

/-- The `_state` field of a promise. -/
inductive PState
  | absent
  | undefWritten
  | pending
  | fulfilled
  | rejected
deriving DecidableEq, Repr

/-- A resolving pair / promise capability: the `alreadyResolved` record it
closes over and the promise it settles.  `resolve`/`reject` functions and
the `{promise, resolve, reject}` capability records of the source are both
determined by these two indices. -/
structure Cap where
  flagIdx : Nat
  pIdx : Nat
deriving DecidableEq, Repr

/-- A reaction handler as stored in a `PromiseReaction` record.
`user` is a user-supplied callable (a pure function from the settled value
to a normal or thrown outcome); `defaultResolve`/`defaultReject` are the
closures `performPromiseThen` substitutes for non-callable handlers — note
they capture `promise._result` as read at `then`-call time; `resolver` and
`rejecter` are resolving functions passed as handlers (this happens when a
promise is used as a thenable: `then.call(resolution, resolve, reject)`). -/
inductive Handler
  | user (f : Value → Except Value Value)
  | defaultResolve (captured : Value)
  | defaultReject (captured : Value)
  | resolver (flagIdx pIdx : Nat)
  | rejecter (flagIdx pIdx : Nat)

/-- A `PromiseReaction` record: `{capabilities, handler}`. -/
structure Reaction where
  capability : Cap
  handler : Handler

/-- The behaviour of a thenable's callable `then` when invoked with a
fresh resolving pair `(res, rej)`: it synchronously calls one of them,
throws, or does nothing. -/
inductive ThenBehavior
  | callRes (v : Value)
  | callRej (v : Value)
  | throwE (e : Value)
  | inert

/-- What the `then` member read off a resolution object turned out to be:
a defunctionalised callable, or `Promise.prototype.then` of the promise
object the resolution refers to. -/
inductive ThenKind
  | behavior (b : ThenBehavior)
  | promiseThen (target : Nat)

/-- Outcome of the (possibly throwing) `resolution.then` property read. -/
inductive ThenLookup
  | threw (e : Value)
  | value (callableThen : Option ThenKind)

/-- A heap object: a promise (its internal slots) or a plain object whose
only modelled member is its `then` property. -/
inductive ThenProp
  | missing
  | nonCallable (v : Value)
  | getterThrows (e : Value)
  | callable (b : ThenBehavior)

/-- Internal slots of a promise instance. -/
structure PromiseRec where
  state : PState
  result : Option Value
  fulfillReactions : Option (List Reaction)
  rejectReactions : Option (List Reaction)

/-- A heap object. -/
inductive ObjRec
  | promiseObj (rec : PromiseRec)
  | plainObj (thenProp : ThenProp)

/-- A queued job of the process-wide `promiseJobs` queue. -/
inductive Job
  | reactionJob (cap : Cap) (handler : Handler) (arg : Value)
  | thenableJob (pIdx : Nat) (resolution : Value) (tk : ThenKind)

/-- The whole machine: heap, `alreadyResolved` records, and the
`promiseJobs` queue (buffer, `running` flag, in-flight `asap` requests).
`userPairs` records the resolving pairs that were handed to user-supplied
executors (a user program can retain and call them later); `assertFailed`
becomes true if one of the source's `assert(pending)` guards would have
thrown. -/
structure Machine where
  objects : List ObjRec
  flags : List Bool
  queue : List Job
  running : Bool
  scheduled : Nat
  userPairs : List Cap
  assertFailed : Bool

/-- The machine at process start: empty heap, empty queue. -/
def initMachine : Machine :=
  ⟨[], [], [], false, 0, [], false⟩

/-- Placeholder record returned when reading a non-promise heap slot. -/
def dummyRec : PromiseRec := ⟨.absent, none, none, none⟩

/-- Read promise `p`'s internal slots. -/
def getPromiseRec (st : Machine) (p : Nat) : PromiseRec :=
  match lget? st.objects p with
  | some (.promiseObj r) => r
  | _ => dummyRec

/-- Overwrite promise `p`'s internal slots. -/
def setPromiseRec (st : Machine) (p : Nat) (r : PromiseRec) : Machine :=
  { st with objects := lset st.objects p (.promiseObj r) }

/-- Read an `alreadyResolved` record. -/
def getFlag (st : Machine) (f : Nat) : Bool :=
  (lget? st.flags f).getD false

/-- Set an `alreadyResolved` record. -/
def setFlag (st : Machine) (f : Nat) (b : Bool) : Machine :=
  { st with flags := lset st.flags f b }

/-- `Queue.prototype.enqueue` on the `promiseJobs` queue: schedule one
`asap` drain request when not running, then push onto the live buffer. -/
def enqueueJob (j : Job) (st : Machine) : Machine :=
  let st' := if !st.running then { st with scheduled := st.scheduled + 1 } else st
  { st' with queue := st'.queue ++ [j] }

/-- `TriggerPromiseReactions(reactions, arg)` of the complete draft:
the loop enqueues one closure per reaction, but `var reaction` is
function-scoped, so every closure shares the single `reaction` binding and
reads it only when the job runs — after the loop has finished, when it
holds the **last** element of `reactions`.  The net effect embedded here:
`reactions.length` copies of the job for the last reaction. -/
def triggerPromiseReactions (reactions : List Reaction) (arg : Value) (st : Machine) : Machine :=
  match lastOf reactions with
  | none => st
  | some last =>
    reactions.foldl (fun s _ => enqueueJob (.reactionJob last.capability last.handler arg) s) st

/-- `FulfillPromise(promise, value)`: assert pending, snapshot the fulfill
reactions, store the result, drop both reaction lists, flip the state,
trigger the snapshot. -/
def fulfillPromise (p : Nat) (value : Value) (st : Machine) : Machine :=
  let rec0 := getPromiseRec st p
  if rec0.state ≠ .pending then { st with assertFailed := true }
  else
    let reactions := rec0.fulfillReactions.getD []
    let st' := setPromiseRec st p ⟨.fulfilled, some value, none, none⟩
    triggerPromiseReactions reactions value st'

/-- `RejectPromise(promise, reason)`: mirror image of `fulfillPromise`
over the reject reactions. -/
def rejectPromise (p : Nat) (reason : Value) (st : Machine) : Machine :=
  let rec0 := getPromiseRec st p
  if rec0.state ≠ .pending then { st with assertFailed := true }
  else
    let reactions := rec0.rejectReactions.getD []
    let st' := setPromiseRec st p ⟨.rejected, some reason, none, none⟩
    triggerPromiseReactions reactions reason st'

/-- The `resolution.then` property read (`Get(resolution, "then")`).
A promise object exposes the callable `Promise.prototype.then`; a plain
object exposes whatever its `then` member holds (a getter may throw). -/
def getThen (st : Machine) (v : Value) : ThenLookup :=
  match v with
  | .objRef i =>
    match lget? st.objects i with
    | some (.promiseObj _) => .value (some (.promiseThen i))
    | some (.plainObj tp) =>
      match tp with
      | .missing => .value none
      | .nonCallable _ => .value none
      | .getterThrows e => .threw e
      | .callable b => .value (some (.behavior b))
    | none => .value none
  | _ => .value none

/-- The `resolve` function built by `createResolvingFunctions` for the
record `flagIdx` and promise `p`: settle-once guard, flag set, self-check
via `sameValue`, plain-value fulfilment (`!resolution || typeof resolution
!== 'object'`), `then` read with a throwing-getter catch, callability
check, and finally the enqueueing of a `PromiseResolveThenableJob`. -/
def resolveFn (flagIdx p : Nat) (resolution : Value) (st : Machine) : Machine :=
  if getFlag st flagIdx then st
  else
    let st' := setFlag st flagIdx true
    if sameValue resolution (.objRef p) then
      rejectPromise p (.typeError "You cannot resolve a promise with itself") st'
    else if isFalsy resolution || typeofV resolution ≠ .tObj then
      fulfillPromise p resolution st'
    else
      match getThen st' resolution with
      | .threw e => rejectPromise p e st'
      | .value none => fulfillPromise p resolution st'
      | .value (some tk) => enqueueJob (.thenableJob p resolution tk) st'

/-- The `reject` function built by `createResolvingFunctions`:
settle-once guard, flag set, `RejectPromise`. -/
def rejectFn (flagIdx p : Nat) (reason : Value) (st : Machine) : Machine :=
  if getFlag st flagIdx then st
  else rejectPromise p reason (setFlag st flagIdx true)

/-- A call a user (or executor) makes on a retained resolving pair. -/
inductive PairCall
  | res (v : Value)
  | rej (v : Value)

/-- Apply one call of a resolving pair. -/
def pairCallRun (cap : Cap) (c : PairCall) (st : Machine) : Machine :=
  match c with
  | .res v => resolveFn cap.flagIdx cap.pIdx v st
  | .rej v => rejectFn cap.flagIdx cap.pIdx v st

/-- Defunctionalised executor body: the synchronous calls it makes on its
resolving pair, then optionally a thrown value. -/
structure ExecBehavior where
  actions : List PairCall
  throwsAfter : Option Value

/-- The executor argument of the `Promise` constructor: either fails
`utils.isCallable`, or is callable with the given behaviour. -/
inductive ExecutorSpec
  | notCallable (v : Value)
  | callable (b : ExecBehavior)

/-- `new Promise(executor)` (constructor plus `InitializePromise`):
allocate `this`, write `this._state = undefined`, throw a `TypeError` on a
non-callable executor, otherwise set the pending state and empty reaction
lists, create the resolving pair (handing it to the user's executor, which
may retain it — recorded in `userPairs`), run the executor synchronously,
and let an executor throw propagate out (the source's step 8 is
"Didn't implement").  Returns the new promise index or the thrown value. -/
def promiseConstructor (ex : ExecutorSpec) (st : Machine) : Except Value Nat × Machine :=
  let pIdx := st.objects.length
  let st1 := { st with objects := st.objects ++ [.promiseObj ⟨.absent, none, none, none⟩] }
  let st2 := setPromiseRec st1 pIdx ⟨.undefWritten, none, none, none⟩
  match ex with
  | .notCallable _ => (.error (.typeError "executor is not a function"), st2)
  | .callable b =>
    let st3 := setPromiseRec st2 pIdx ⟨.pending, none, some [], some []⟩
    let flagIdx := st3.flags.length
    let st4 := { st3 with flags := st3.flags ++ [false] }
    let st5 := { st4 with userPairs := st4.userPairs ++ [⟨flagIdx, pIdx⟩] }
    let st6 := b.actions.foldl (fun s a => pairCallRun ⟨flagIdx, pIdx⟩ a s) st5
    match b.throwsAfter with
    | some e => (.error e, st6)
    | none => (.ok pIdx, st6)

/-- `NewPromiseCapability(C)`: run the constructor with the internal
capture executor (which stores the resolving pair into the capability
record and performs no other action).  The pair is not handed to user
code.  Returns the capability. -/
def newPromiseCapability (st : Machine) : Cap × Machine :=
  let pIdx := st.objects.length
  let st1 := { st with objects := st.objects ++ [.promiseObj ⟨.absent, none, none, none⟩] }
  let st2 := setPromiseRec st1 pIdx ⟨.undefWritten, none, none, none⟩
  let st3 := setPromiseRec st2 pIdx ⟨.pending, none, some [], some []⟩
  let flagIdx := st3.flags.length
  let st4 := { st3 with flags := st3.flags ++ [false] }
  (⟨flagIdx, pIdx⟩, st4)

/-- A handler argument as passed to `then`. -/
inductive HandlerArg
  | func (h : Handler)
  | notCallable (v : Value)

/-- The non-callable-handler substitution of `PerformPromiseThen`:
`if (!utils.isCallable(onX)) onX = <default closure>`. -/
def selectHandler (onX : HandlerArg) (dflt : Handler) : Handler :=
  match onX with
  | .func h => h
  | .notCallable _ => dflt

/-- `PerformPromiseThen(promise, onFulfilled, onRejected, resultCapability)`:
read `promise._result` (which is `undefined` while pending), substitute the
default closures for non-callable handlers (each capturing that read),
build the two reaction records, and branch on the state: pending appends
to both lists; a settled state enqueues one reaction job immediately with
the known result. -/
def performPromiseThen (p : Nat) (onF onR : HandlerArg) (cap : Cap) (st : Machine) : Machine :=
  let rec0 := getPromiseRec st p
  let result := rec0.result.getD .undef
  let onFulfilled : Handler := selectHandler onF (.defaultResolve result)
  let onRejected : Handler := selectHandler onR (.defaultReject result)
  match rec0.state with
  | .pending =>
    setPromiseRec st p
      { rec0 with
        fulfillReactions := some (rec0.fulfillReactions.getD [] ++ [⟨cap, onFulfilled⟩]),
        rejectReactions := some (rec0.rejectReactions.getD [] ++ [⟨cap, onRejected⟩]) }
  | .fulfilled => enqueueJob (.reactionJob cap onFulfilled result) st
  | .rejected => enqueueJob (.reactionJob cap onRejected result) st
  | _ => st

/-- `Promise.prototype.then`: build a fresh capability, perform the
registration, return the derived promise. -/
def thenCall (p : Nat) (onF onR : HandlerArg) (st : Machine) : Nat × Machine :=
  let (cap, st1) := newPromiseCapability st
  (cap.pIdx, performPromiseThen p onF onR cap st1)

/-- `PromiseReactionJob` as the enqueued closure runs it:
`try { handlerResult = reaction(result) } catch (err) { reject(err) }
resolve(handlerResult)` — a throwing handler rejects the derived promise
and then still calls `resolve(undefined)` (a settle-once no-op); a
resolving-function handler settles its own target and returns `undefined`,
which the trailing `resolve` then resolves the derived promise with. -/
def promiseReactionJob (cap : Cap) (handler : Handler) (result : Value) (st : Machine) : Machine :=
  match handler with
  | .user f =>
    match f result with
    | .ok r => resolveFn cap.flagIdx cap.pIdx r st
    | .error e => resolveFn cap.flagIdx cap.pIdx .undef (rejectFn cap.flagIdx cap.pIdx e st)
  | .defaultResolve captured =>
    resolveFn cap.flagIdx cap.pIdx .undef (resolveFn cap.flagIdx cap.pIdx captured st)
  | .defaultReject captured =>
    resolveFn cap.flagIdx cap.pIdx .undef (rejectFn cap.flagIdx cap.pIdx captured st)
  | .resolver f q =>
    resolveFn cap.flagIdx cap.pIdx .undef (resolveFn f q result st)
  | .rejecter f q =>
    resolveFn cap.flagIdx cap.pIdx .undef (rejectFn f q result st)

/-- `PromiseResolveThenableJob`: create a fresh resolving pair for the
promise, then invoke the stored `then` on the resolution with that pair;
if the invocation throws, call the new pair's `reject` with the error.
When the resolution is itself a promise, the stored `then` is
`Promise.prototype.then`, so the pair's functions become the reaction
handlers of a fresh `then` registration on that promise. -/
def promiseResolveThenableJob (p : Nat) (tk : ThenKind) (st : Machine) : Machine :=
  let f := st.flags.length
  let st1 := { st with flags := st.flags ++ [false] }
  match tk with
  | .behavior b =>
    match b with
    | .callRes v => resolveFn f p v st1
    | .callRej v => rejectFn f p v st1
    | .throwE e => rejectFn f p e st1
    | .inert => st1
  | .promiseThen target =>
    (thenCall target (.func (.resolver f p)) (.func (.rejecter f p)) st1).2

/-- Run one queued job. -/
def execJob (j : Job) (st : Machine) : Machine :=
  match j with
  | .reactionJob cap h arg => promiseReactionJob cap h arg st
  | .thenableJob p _ tk => promiseResolveThenableJob p tk st

/-- The drain loop of `Queue.prototype.run` over the `promiseJobs` queue:
index the live buffer (which jobs may extend) until the index passes the
current length, then clear the buffer and the `running` flag.  `fuel`
bounds iterations. -/
def drainLoop : Nat → Nat → Machine → Machine
  | 0, _, st => st
  | fuel + 1, i, st =>
    match lget? st.queue i with
    | some j => drainLoop fuel (i + 1) (execJob j st)
    | none => { st with queue := [], running := false }

/-- `Queue.prototype.run` on the `promiseJobs` queue. -/
def queueRun (fuel : Nat) (st : Machine) : Machine :=
  if st.running then st else drainLoop fuel 0 { st with running := true }

/-- One in-flight `asap` request fires: it calls `queue.run()`. -/
def fireAsap (fuel : Nat) (st : Machine) : Machine :=
  if st.scheduled = 0 then st
  else queueRun fuel { st with scheduled := st.scheduled - 1 }

/-- `Promise.all(iterable)` of the complete draft: build a fresh
capability (whose pair is dropped), declare dead locals, and return the
capability's promise without ever touching the iterable. -/
def promiseAll (iterable : List Value) (st : Machine) : Nat × Machine :=
  let (cap, st1) := newPromiseCapability st
  let _values : List Value := []
  let _remainingElementsCount : Nat := 1
  let _index : Nat := 0
  let _ := iterable
  (cap.pIdx, st1)

/-- `Promise.reject(r)`: fresh capability, call its `reject`, return the
promise. -/
def promiseStaticReject (r : Value) (st : Machine) : Nat × Machine :=
  let (cap, st1) := newPromiseCapability st
  (cap.pIdx, rejectFn cap.flagIdx cap.pIdx r st1)

/-- A handler argument as a user can supply it to `then`: a pure callable
or any non-callable value. -/
inductive UserHandler
  | ufun (f : Value → Except Value Value)
  | unotCallable (v : Value)

/-- Interpret a user handler argument. -/
def UserHandler.toArg : UserHandler → HandlerArg
  | .ufun f => .func (.user f)
  | .unotCallable v => .notCallable v

/-- One step a user program (or the scheduler) can take against the public
surface: construct a promise, call `then`, call the static combinators,
invoke a retained resolving pair, or let an in-flight `asap` request
fire. -/
inductive Cmd
  | construct (ex : ExecutorSpec)
  | callThen (target : Nat) (onF onR : UserHandler)
  | callAll (iterable : List Value)
  | callStaticReject (r : Value)
  | lateCall (i : Nat) (c : PairCall)
  | asapFire (fuel : Nat)

/-- Execute one step. -/
def execCmd (c : Cmd) (st : Machine) : Machine :=
  match c with
  | .construct ex => (promiseConstructor ex st).2
  | .callThen t onF onR => (thenCall t onF.toArg onR.toArg st).2
  | .callAll it => (promiseAll it st).2
  | .callStaticReject r => (promiseStaticReject r st).2
  | .lateCall i pc =>
    match lget? st.userPairs i with
    | some cap => pairCallRun cap pc st
    | none => st
  | .asapFire fuel => fireAsap fuel st

/-- Execute a sequence of steps. -/
def execCmds (cs : List Cmd) (st : Machine) : Machine :=
  cs.foldl (fun s c => execCmd c s) st

/-! ### Queue lemmas -/

mutual
/-- All identifiers in the spawn tree of one job. -/
def allIds : QJob → List Nat
  | .mk i spawns => i :: allIdsL spawns
/-- All identifiers in the spawn trees of a list of jobs. -/
def allIdsL : List QJob → List Nat
  | [] => []
  | j :: rest => allIds j ++ allIdsL rest
end

theorem qsizeL_append (a b : List QJob) :
    qsizeL (a ++ b) = qsizeL a + qsizeL b := by
  induction a with
  | nil => simp [qsizeL]
  | cons j t ih => simp [qsizeL, ih]; omega

theorem qsize_eq (j : QJob) : qsize j = 1 + qsizeL j.qspawns := by
  cases j; simp [qsize, QJob.qspawns]

theorem allIdsL_append (a b : List QJob) :
    allIdsL (a ++ b) = allIdsL a ++ allIdsL b := by
  induction a with
  | nil => simp [allIdsL]
  | cons j t ih => simp [allIdsL, ih]

theorem lget?_none_of_le {l : List α} {i : Nat} (h : l.length ≤ i) :
    lget? l i = none := by
  induction l generalizing i with
  | nil => rfl
  | cons a t ih =>
    cases i with
    | zero => simp at h
    | succ n => exact ih (by simpa using h)

theorem le_of_lget?_none {l : List α} {i : Nat} (h : lget? l i = none) :
    l.length ≤ i := by
  induction l generalizing i with
  | nil => simp
  | cons a t ih =>
    cases i with
    | zero => simp [lget?] at h
    | succ n => simpa [Nat.succ_le_succ_iff] using ih h

theorem lget?_lt_length {l : List α} {i : Nat} {a : α}
    (h : lget? l i = some a) : i < l.length := by
  induction l generalizing i with
  | nil => simp [lget?] at h
  | cons b t ih =>
    cases i with
    | zero => simp
    | succ n => simpa using ih h

theorem drop_eq_cons_of_lget? {l : List α} {i : Nat} {a : α}
    (h : lget? l i = some a) : l.drop i = a :: l.drop (i + 1) := by
  induction l generalizing i with
  | nil => simp [lget?] at h
  | cons b t ih =>
    cases i with
    | zero => simp [lget?] at h; simp [h]
    | succ n => simpa using ih h

theorem drop_append_of_lt {l l' : List α} {i : Nat} (h : i ≤ l.length) :
    (l ++ l').drop i = l.drop i ++ l' := by
  induction l generalizing i with
  | nil => simp at h; simp [h]
  | cons b t ih =>
    cases i with
    | zero => simp
    | succ n => simpa using ih (by simpa using h)

/-- Nested `enqueue` calls made while the queue is running neither
schedule `asap` requests nor do anything but append to the live buffer. -/
theorem foldl_qenqueue_running (spawns : List QJob) (s : QState) (h : s.running = true) :
    spawns.foldl (fun s sj => qenqueue sj s) s = { s with jobs := s.jobs ++ spawns } := by
  induction spawns generalizing s with
  | nil => simp
  | cons j t ih =>
    have : qenqueue j s = { s with jobs := s.jobs ++ [j] } := by
      simp [qenqueue, h]
    rw [List.foldl_cons, this, ih _ (by simp [h])]
    simp

theorem qexec_running (j : QJob) (st : QState) (h : st.running = true) :
    qexec j st = ⟨st.jobs ++ j.qspawns, st.running, st.scheduled, st.log ++ [j.qid]⟩ := by
  unfold qexec
  rw [foldl_qenqueue_running j.qspawns { st with log := st.log ++ [j.qid] } (by simp [h])]

/-- The drain loop executes exactly the live buffer from index `i` on,
in `qorder`, and then clears the buffer and the flag. -/
theorem qdrainLoop_spec (fuel : Nat) :
    ∀ (i : Nat) (st : QState), st.running = true →
    qsizeL (st.jobs.drop i) < fuel →
    qdrainLoop fuel i st = ⟨[], false, st.scheduled, st.log ++ qorder (st.jobs.drop i)⟩ := by
  induction fuel with
  | zero => intro i st _ h; omega
  | succ f ih =>
    intro i st hrun hsz
    match hg : lget? st.jobs i with
    | some j =>
      have hdrop : st.jobs.drop i = j :: st.jobs.drop (i + 1) := drop_eq_cons_of_lget? hg
      have hlt : i < st.jobs.length := lget?_lt_length hg
      have hex : qexec j st = ⟨st.jobs ++ j.qspawns, st.running, st.scheduled, st.log ++ [j.qid]⟩ :=
        qexec_running j st hrun
      have hdrop' : (st.jobs ++ j.qspawns).drop (i + 1) = st.jobs.drop (i + 1) ++ j.qspawns :=
        drop_append_of_lt (by omega)
      have hsz' : qsizeL ((st.jobs ++ j.qspawns).drop (i + 1)) < f := by
        rw [hdrop']
        rw [hdrop] at hsz
        simp only [qsizeL, qsizeL_append] at hsz ⊢
        have := qsize_eq j
        omega
      have hstep : qdrainLoop (f + 1) i st = qdrainLoop f (i + 1) (qexec j st) := by
        simp [qdrainLoop, hg]
      have hrest := ih (i + 1) (qexec j st) (by rw [hex]; exact hrun) (by rw [hex]; exact hsz')
      rw [hstep, hrest, hex]
      simp only [hdrop', hdrop]
      have : qorder (j :: st.jobs.drop (i + 1))
          = j.qid :: qorder (st.jobs.drop (i + 1) ++ j.qspawns) := by
        simp [qorder]
      rw [this]
      simp
    | none =>
      have hlen : st.jobs.length ≤ i := le_of_lget?_none hg
      have hnil : st.jobs.drop i = [] := List.drop_eq_nil_of_le hlen
      simp [qdrainLoop, hg, hnil, qorder]

/-- Every job in the buffer and every job transitively enqueued during the
drain is executed exactly once within the drain: the execution order is a
permutation of all spawn-tree identifiers. -/
theorem qorder_perm (n : Nat) :
    ∀ l : List QJob, qsizeL l ≤ n → List.Perm (qorder l) (allIdsL l) := by
  induction n with
  | zero =>
    intro l h
    cases l with
    | nil => simp [qorder, allIdsL]
    | cons j rest => exfalso; simp only [qsizeL] at h; have := qsize_eq j; omega
  | succ m ih =>
    intro l h
    cases l with
    | nil => simp [qorder, allIdsL]
    | cons j rest =>
      obtain ⟨jid, jsp⟩ := j
      have hsz : qsizeL (rest ++ jsp) ≤ m := by
        rw [qsizeL_append]
        simp only [qsizeL, qsize] at h
        omega
      have hperm := ih (rest ++ (QJob.mk jid jsp).qspawns) (by simpa [QJob.qspawns] using hsz)
      rw [allIdsL_append] at hperm
      have hq : qorder (QJob.mk jid jsp :: rest)
          = jid :: qorder (rest ++ (QJob.mk jid jsp).qspawns) := by
        simp [qorder, QJob.qid]
      rw [hq]
      refine List.Perm.trans (List.Perm.cons jid hperm) ?_
      simp only [allIdsL, allIds, QJob.qspawns]
      exact List.Perm.trans (List.Perm.cons jid List.perm_append_comm) (by simp)

/-- The jobs that were in the buffer when the drain started are executed
first, in FIFO order (their identifiers are an initial segment of the
drain's execution order). -/
theorem qorder_front (n : Nat) :
    ∀ l : List QJob, qsizeL l ≤ n → ∃ t, qorder l = l.map QJob.qid ++ t := by
  induction n with
  | zero =>
    intro l h
    cases l with
    | nil => exact ⟨[], by simp [qorder]⟩
    | cons j rest => exfalso; simp only [qsizeL] at h; have := qsize_eq j; omega
  | succ m ih =>
    intro l h
    cases l with
    | nil => exact ⟨[], by simp [qorder]⟩
    | cons j rest =>
      obtain ⟨jid, jsp⟩ := j
      have hsz : qsizeL (rest ++ jsp) ≤ m := by
        rw [qsizeL_append]
        simp only [qsizeL, qsize] at h
        omega
      rcases ih (rest ++ (QJob.mk jid jsp).qspawns) (by simpa [QJob.qspawns] using hsz) with ⟨t, ht⟩
      rw [List.map_append] at ht
      refine ⟨jsp.map QJob.qid ++ t, ?_⟩
      have hq : qorder (QJob.mk jid jsp :: rest)
          = jid :: qorder (rest ++ (QJob.mk jid jsp).qspawns) := by
        simp [qorder, QJob.qid]
      rw [hq, ht]
      simp [QJob.qid, QJob.qspawns]

/-! ### Claims C2 and C9: the job queue -/

/-- C2 (counterexample): `Queue.prototype.run` does not snapshot-and-clear
the buffer before executing.  With a single buffered job (id 0) that
enqueues another job (id 1) while the drain is in progress, the nested job
is executed within the same `run` call — the drain's log is `[0, 1]` and
the buffer is empty afterwards, so nothing is left for a strictly later
drain, contradicting the claim that a job enqueued during a drain is never
folded into the in-progress run. -/
theorem c2_nested_job_runs_in_same_drain :
    (qrun 5 ⟨[QJob.mk 0 [QJob.mk 1 []]], false, 0, []⟩).log = [0, 1] ∧
    (qrun 5 ⟨[QJob.mk 0 [QJob.mk 1 []]], false, 0, []⟩).jobs = [] ∧
    (qrun 5 ⟨[QJob.mk 0 [QJob.mk 1 []]], false, 0, []⟩).running = false :=
  ⟨rfl, rfl, rfl⟩

/-- C2 (amended): `run` marks the queue draining and iterates the **live**
buffer, re-reading its length each step; the jobs buffered at drain start
run first, in FIFO order, and every job enqueued while the drain is in
progress is also executed — exactly once — within the same drain, after
which the buffer is cleared and the flag dropped.  The in-flight request
count is untouched by the drain. -/
theorem c2_run_executes_live_buffer :
    (∀ (st : QState) (fuel : Nat), st.running = false → qsizeL st.jobs < fuel →
      qrun fuel st = ⟨[], false, st.scheduled, st.log ++ qorder st.jobs⟩) ∧
    (∀ l : List QJob, ∃ t, qorder l = l.map QJob.qid ++ t) ∧
    (∀ l : List QJob, List.Perm (qorder l) (allIdsL l)) := by
  refine ⟨?_, ?_, ?_⟩
  · intro st fuel hrun hsz
    have h := qdrainLoop_spec fuel 0 { st with running := true } rfl (by simpa using hsz)
    simp only [qrun, hrun]
    simpa using h
  · intro l
    exact qorder_front (qsizeL l) l (Nat.le_refl _)
  · intro l
    exact qorder_perm (qsizeL l) l (Nat.le_refl _)

/-- C2 witness: the amended drain theorem evaluated on a one-job buffer
with two requests in flight. -/
theorem c2_run_executes_live_buffer_witness :
    qrun 3 ⟨[QJob.mk 7 []], false, 2, []⟩ = ⟨[], false, 2, [7]⟩ ∧
    (∃ t, qorder [QJob.mk 7 []] = [7] ++ t) ∧
    List.Perm (qorder [QJob.mk 7 []]) (allIdsL [QJob.mk 7 []]) := by
  refine ⟨?_, ?_, ?_⟩
  · have h := c2_run_executes_live_buffer.1 ⟨[QJob.mk 7 []], false, 2, []⟩ 3 rfl (by decide)
    simpa [qorder, QJob.qid, QJob.qspawns] using h
  · have h := c2_run_executes_live_buffer.2.1 [QJob.mk 7 []]
    simpa [QJob.qid] using h
  · exact c2_run_executes_live_buffer.2.2 [QJob.mk 7 []]

/-- C9 (counterexample): two `enqueue` calls made while the queue is not
running each schedule their own `asap` drain request — after buffering two
jobs, **two** requests are in flight, refuting "exactly one per
accumulation cycle, never more than one in flight". -/
theorem c9_two_requests_in_flight :
    (qenqueue (QJob.mk 1 []) (qenqueue (QJob.mk 0 []) ⟨[], false, 0, []⟩)).scheduled = 2 :=
  rfl

/-- C9 (amended): `enqueue` schedules one drain request per call made
while the queue is not running (so several may be in flight at once), and
none while it is running; surplus drains are harmless no-ops, because a
drain on an empty buffer changes nothing. -/
theorem c9_one_request_per_enqueue_call :
    (∀ (st : QState) (j : QJob), st.running = false →
      (qenqueue j st).scheduled = st.scheduled + 1 ∧ (qenqueue j st).jobs = st.jobs ++ [j]) ∧
    (∀ (st : QState) (j : QJob), st.running = true →
      (qenqueue j st).scheduled = st.scheduled ∧ (qenqueue j st).jobs = st.jobs ++ [j]) ∧
    (∀ (fuel : Nat) (st : QState), st.jobs = [] → st.running = false → 0 < fuel →
      qrun fuel st = st) := by
  refine ⟨?_, ?_, ?_⟩
  · intro st j h; constructor <;> simp [qenqueue, h]
  · intro st j h; constructor <;> simp [qenqueue, h]
  · intro fuel st hj hr hf
    cases fuel with
    | zero => omega
    | succ f =>
      obtain ⟨jobs, running, sched, log⟩ := st
      simp only at hj hr
      subst hj; subst hr
      simp [qrun, qdrainLoop, lget?]

/-- C9 witness: the amended enqueue/drain theorem at concrete states. -/
theorem c9_one_request_per_enqueue_call_witness :
    ((qenqueue (QJob.mk 4 []) ⟨[], false, 0, []⟩).scheduled = 0 + 1 ∧
      (qenqueue (QJob.mk 4 []) ⟨[], false, 0, []⟩).jobs = [] ++ [QJob.mk 4 []]) ∧
    ((qenqueue (QJob.mk 5 []) ⟨[], true, 0, []⟩).scheduled = 0 ∧
      (qenqueue (QJob.mk 5 []) ⟨[], true, 0, []⟩).jobs = [] ++ [QJob.mk 5 []]) ∧
    qrun 1 ⟨[], false, 3, [9]⟩ = ⟨[], false, 3, [9]⟩ :=
  ⟨c9_one_request_per_enqueue_call.1 ⟨[], false, 0, []⟩ (QJob.mk 4 []) rfl,
   c9_one_request_per_enqueue_call.2.1 ⟨[], true, 0, []⟩ (QJob.mk 5 []) rfl,
   c9_one_request_per_enqueue_call.2.2 1 ⟨[], false, 3, [9]⟩ rfl rfl (by decide)⟩

/-! ### Claim C1: reaction ordering under `triggerPromiseReactions` -/

/-- The C1 scenario: a promise constructed pending, `then(f1)` and then
`then(f2)` registered (f1 returns "one", f2 returns "two"), the promise
fulfilled with "v" through the pair its executor retained, and the
in-flight drain request fired. -/
def c1Scenario : Machine :=
  execCmds
    [.construct (.callable ⟨[], none⟩),
     .callThen 0 (.ufun (fun _ => .ok (.strV "one"))) (.unotCallable .undef),
     .callThen 0 (.ufun (fun _ => .ok (.strV "two"))) (.unotCallable .undef),
     .lateCall 0 (.res (.strV "v")),
     .asapFire 10]
    initMachine

/-- C1: because `var reaction` in `triggerPromiseReactions` is
function-scoped, both enqueued closures read the shared binding at run
time, when it holds the **last** reaction.  Both drain jobs therefore run
`f2` and settle the second derived promise (the second settle being a
settle-once no-op): the first derived promise (heap index 1) stays pending
forever and `f1` never runs, while the second (heap index 2) is fulfilled
with `f2`'s result — refuting "f1 runs before f2, and each reaction job
runs its own reaction's handler and settles its own reaction's derived
promise, exactly once per reaction". -/
theorem c1_all_jobs_run_last_reaction :
    (getPromiseRec c1Scenario 1).state = PState.pending ∧
    (getPromiseRec c1Scenario 1).result = none ∧
    (getPromiseRec c1Scenario 2).state = PState.fulfilled ∧
    (getPromiseRec c1Scenario 2).result = some (.strV "two") :=
  ⟨rfl, rfl, rfl, rfl⟩

/-! ### Claim C4: default handlers for non-callable `then` arguments -/

/-- The C4 scenario: `then(null, null)` registered while the source is
still pending, the source then fulfilled with "v", and the drain fired. -/
def c4Scenario : Machine :=
  execCmds
    [.construct (.callable ⟨[], none⟩),
     .callThen 0 (.unotCallable .nul) (.unotCallable .nul),
     .lateCall 0 (.res (.strV "v")),
     .asapFire 10]
    initMachine

/-- C4: `performPromiseThen` substitutes for a non-callable handler a
closure that captures `var result = promise._result` **at `then`-call
time**.  When `then(null, null)` is called on a pending promise that
capture is `undefined`, so after the source is fulfilled with "v" the
derived promise (heap index 1) is fulfilled with `undefined`, not "v" —
refuting the identity-pass-through claim for the pending case.  The
source promise itself (index 0) does hold "v". -/
theorem c4_default_handler_captures_pending_result :
    (getPromiseRec c4Scenario 1).state = PState.fulfilled ∧
    (getPromiseRec c4Scenario 1).result = some Value.undef ∧
    (getPromiseRec c4Scenario 0).result = some (.strV "v") :=
  ⟨rfl, rfl, rfl⟩

/-! ### Claim C5: the self-resolution check and plain values -/

/-- The C5 scenario: an executor that calls `resolve(null)`. -/
def c5Scenario : Machine :=
  execCmds [.construct (.callable ⟨[.res .nul], none⟩)] initMachine

/-- C5: `sameValue` of `lib/utils.js` returns `true` whenever its first
argument is `null` and the `typeof`s agree — and `typeof null` is
`"object"`, the `typeof` of the promise.  `resolve(null)` therefore takes
the self-resolution branch and **rejects** the promise with the
"cannot resolve a promise with itself" `TypeError` instead of fulfilling
it with `null`, refuting both directions of the claim at the plain value
`null`. -/
theorem c5_resolve_null_takes_self_resolution_branch :
    (getPromiseRec c5Scenario 0).state = PState.rejected ∧
    (getPromiseRec c5Scenario 0).result
      = some (.typeError "You cannot resolve a promise with itself") :=
  ⟨rfl, rfl⟩

/-- C5 (complement): for a non-null plain value such as a string the
resolve function does fulfil directly, and resolving a promise with
itself does reject — the claim fails only at `null`. -/
theorem c5_plain_string_fulfills_and_self_rejects :
    (getPromiseRec (execCmds [.construct (.callable ⟨[.res (.strV "x")], none⟩)] initMachine) 0).state
      = PState.fulfilled ∧
    (getPromiseRec (execCmds [.construct (.callable ⟨[.res (.objRef 0)], none⟩)] initMachine) 0).state
      = PState.rejected :=
  ⟨rfl, rfl⟩

/-! ### Claim C6: executor throwing during construction -/

/-- The C6 machine: construct with an executor that throws "boom" without
calling either resolving function. -/
def c6Run : Except Value Nat × Machine :=
  promiseConstructor (.callable ⟨[], some (.strV "boom")⟩) initMachine

/-- C6: step 8 of `InitializePromise` is marked "Didn't implement" in the
source, so an executor throw propagates out of the constructor (the
construction returns the thrown value instead of a promise) and the new
promise is left permanently pending — refuting "the newly constructed
promise is rejected with the thrown error". -/
theorem c6_executor_throw_escapes_and_leaves_pending :
    c6Run.1 = .error (.strV "boom") ∧
    (getPromiseRec c6Run.2 0).state = PState.pending ∧
    (getPromiseRec c6Run.2 0).result = none :=
  ⟨rfl, rfl, rfl⟩

/-! ### Claim C8: non-callable executor -/

/-- C8 (counterexample): the constructor executes `this._state =
undefined` **before** the `IsCallable(executor)` check, so after the
`TypeError` is thrown the freshly allocated instance observably owns a
`_state` field (`undefWritten`, not `absent`) — refuting "no promise field
is written prior to the throw". -/
theorem c8_state_field_written_before_throw :
    (promiseConstructor (.notCallable .undef) initMachine).1
      = .error (.typeError "executor is not a function") ∧
    (promiseConstructor (.notCallable .undef) initMachine).2.objects
      = [.promiseObj ⟨.undefWritten, none, none, none⟩] :=
  ⟨rfl, rfl⟩

/-- C8 (amended): a non-callable executor makes the constructor throw a
`TypeError` immediately and synchronously — no job is enqueued, no drain
request is scheduled, no resolving pair is created, and the only field
written before the throw is `_state`, set to `undefined`; the promise is
never initialised to pending and no reaction list is created. -/
theorem c8_noncallable_executor_throws_after_state_write (st : Machine) (v : Value) :
    promiseConstructor (.notCallable v) st
      = (.error (.typeError "executor is not a function"),
          { st with objects := st.objects ++ [.promiseObj ⟨.undefWritten, none, none, none⟩] }) := by
  simp only [promiseConstructor, setPromiseRec]
  rw [lset_append_length]

/-! ### Frame lemmas: which machine components each operation can touch -/

/-- `st'` differs from `st` at most in the job buffer and the in-flight
request count (the only effects of `enqueue`). -/
def QueueOnly (st st' : Machine) : Prop :=
  st'.objects = st.objects ∧ st'.flags = st.flags ∧
  st'.userPairs = st.userPairs ∧ st'.assertFailed = st.assertFailed ∧
  st'.running = st.running

theorem queueOnly_refl (st : Machine) : QueueOnly st st :=
  ⟨rfl, rfl, rfl, rfl, rfl⟩

theorem queueOnly_trans {a b c : Machine} (h1 : QueueOnly a b) (h2 : QueueOnly b c) :
    QueueOnly a c := by
  obtain ⟨o1, f1, u1, a1, r1⟩ := h1
  obtain ⟨o2, f2, u2, a2, r2⟩ := h2
  exact ⟨o2.trans o1, f2.trans f1, u2.trans u1, a2.trans a1, r2.trans r1⟩

theorem queueOnly_enqueueJob (j : Job) (st : Machine) : QueueOnly st (enqueueJob j st) := by
  unfold enqueueJob
  split <;> exact ⟨rfl, rfl, rfl, rfl, rfl⟩

theorem queueOnly_foldl_enqueue {α : Type} (l : List α) (jb : Job) (st : Machine) :
    QueueOnly st (l.foldl (fun s _ => enqueueJob jb s) st) := by
  induction l generalizing st with
  | nil => exact queueOnly_refl st
  | cons a t ih =>
    exact queueOnly_trans (queueOnly_enqueueJob jb st) (ih (enqueueJob jb st))

theorem queueOnly_trigger (rs : List Reaction) (arg : Value) (st : Machine) :
    QueueOnly st (triggerPromiseReactions rs arg st) := by
  unfold triggerPromiseReactions
  cases lastOf rs with
  | none => exact queueOnly_refl st
  | some last => exact queueOnly_foldl_enqueue rs _ st

theorem trigger_objects (rs : List Reaction) (arg : Value) (st : Machine) :
    (triggerPromiseReactions rs arg st).objects = st.objects :=
  (queueOnly_trigger rs arg st).1

theorem trigger_flags (rs : List Reaction) (arg : Value) (st : Machine) :
    (triggerPromiseReactions rs arg st).flags = st.flags :=
  (queueOnly_trigger rs arg st).2.1

theorem fulfillPromise_flags (p : Nat) (v : Value) (st : Machine) :
    (fulfillPromise p v st).flags = st.flags := by
  simp only [fulfillPromise]
  split
  · rfl
  · rw [trigger_flags]; rfl

theorem rejectPromise_flags (p : Nat) (v : Value) (st : Machine) :
    (rejectPromise p v st).flags = st.flags := by
  simp only [rejectPromise]
  split
  · rfl
  · rw [trigger_flags]; rfl

theorem getPromiseRec_setFlag (st : Machine) (f : Nat) (b : Bool) (q : Nat) :
    getPromiseRec (setFlag st f b) q = getPromiseRec st q := rfl

theorem getFlag_setFlag_self (st : Machine) (f : Nat) (b : Bool) (h : f < st.flags.length) :
    getFlag (setFlag st f b) f = b := by
  simp [getFlag, setFlag, lget?_lset_self st.flags f b h]

/-- A resolving pair call made after the `alreadyResolved` record is set
leaves that record set (the record is never cleared). -/
theorem getFlag_resolveFn (f p : Nat) (v : Value) (st : Machine) (h : f < st.flags.length) :
    getFlag (resolveFn f p v st) f = true := by
  simp only [resolveFn]
  split
  · assumption
  · have hset : getFlag (setFlag st f true) f = true := getFlag_setFlag_self st f true h
    have hfl : (setFlag st f true).flags = lset st.flags f true := rfl
    split
    · simpa [getFlag, rejectPromise_flags] using hset
    · split
      · simpa [getFlag, fulfillPromise_flags] using hset
      · split
        · simpa [getFlag, rejectPromise_flags] using hset
        · simpa [getFlag, fulfillPromise_flags] using hset
        · simpa [getFlag, (queueOnly_enqueueJob _ _).2.1] using hset

theorem getFlag_rejectFn (f p : Nat) (v : Value) (st : Machine) (h : f < st.flags.length) :
    getFlag (rejectFn f p v st) f = true := by
  simp only [rejectFn]
  split
  · assumption
  · simpa [getFlag, rejectPromise_flags] using getFlag_setFlag_self st f true h

/-! ### The promise state machine transitions at most once

`stepOK r r'` captures every legal evolution of one promise's record
across one operation: unchanged; pending and still pending (a reaction
was appended); settled from pending; or not yet an initialised promise
(the slot was free or mid-construction).  It is reflexive and transitive,
and a settled record can only evolve to itself. -/

/-- Legal single-operation evolution of one promise record. -/
def stepOK (r r' : PromiseRec) : Prop :=
  r' = r
  ∨ (r.state = .pending ∧ r'.state = .pending)
  ∨ (r.state = .pending ∧ (r'.state = .fulfilled ∨ r'.state = .rejected))
  ∨ (r.state = .absent ∨ r.state = .undefWritten)

theorem stepOK_refl (r : PromiseRec) : stepOK r r := Or.inl rfl

theorem stepOK_trans {a b c : PromiseRec} (h1 : stepOK a b) (h2 : stepOK b c) :
    stepOK a c := by
  rcases h1 with h1 | ⟨hp, hp'⟩ | ⟨hp, hs⟩ | h4
  · rw [h1] at h2; exact h2
  · rcases h2 with h2 | ⟨_, hc⟩ | ⟨_, hc⟩ | h4'
    · rw [h2]; exact Or.inr (Or.inl ⟨hp, hp'⟩)
    · exact Or.inr (Or.inl ⟨hp, hc⟩)
    · exact Or.inr (Or.inr (Or.inl ⟨hp, hc⟩))
    · rcases h4' with h | h <;> rw [hp'] at h <;> exact absurd h (by simp)
  · rcases h2 with h2 | ⟨hb, _⟩ | ⟨hb, _⟩ | h4'
    · rw [h2]; exact Or.inr (Or.inr (Or.inl ⟨hp, hs⟩))
    · rcases hs with h | h <;> rw [h] at hb <;> exact absurd hb (by simp)
    · rcases hs with h | h <;> rw [h] at hb <;> exact absurd hb (by simp)
    · rcases hs with h | h <;> rcases h4' with h' | h' <;> rw [h] at h' <;>
        exact absurd h' (by simp)
  · exact Or.inr (Or.inr (Or.inr h4))

/-- A settled record never changes across a `stepOK` evolution. -/
theorem stepOK_settled {a b : PromiseRec}
    (h : stepOK a b) (hs : a.state = .fulfilled ∨ a.state = .rejected) : b = a := by
  rcases h with h | ⟨hp, _⟩ | ⟨hp, _⟩ | h4
  · exact h
  · rcases hs with h' | h' <;> rw [h'] at hp <;> exact absurd hp (by simp)
  · rcases hs with h' | h' <;> rw [h'] at hp <;> exact absurd hp (by simp)
  · rcases hs with h' | h' <;> rcases h4 with h'' | h'' <;> rw [h'] at h'' <;>
      exact absurd h'' (by simp)

theorem getPromiseRec_queueOnly {st st' : Machine} (h : QueueOnly st st') (q : Nat) :
    getPromiseRec st' q = getPromiseRec st q := by
  unfold getPromiseRec; rw [h.1]

theorem getPromiseRec_out_of_range {st : Machine} {q : Nat} (h : st.objects.length ≤ q) :
    getPromiseRec st q = dummyRec := by
  unfold getPromiseRec; rw [lget?_none_of_le h]

theorem getPromiseRec_set_ne (st : Machine) (p : Nat) (r : PromiseRec) {q : Nat} (h : p ≠ q) :
    getPromiseRec (setPromiseRec st p r) q = getPromiseRec st q := by
  unfold getPromiseRec setPromiseRec
  rw [lget?_lset_ne st.objects p q _ h]

theorem getPromiseRec_set_self (st : Machine) (p : Nat) (r : PromiseRec)
    (h : p < st.objects.length) :
    getPromiseRec (setPromiseRec st p r) p = r := by
  unfold getPromiseRec setPromiseRec
  rw [lget?_lset_self st.objects p _ h]

theorem lt_length_of_state_ne_absent {st : Machine} {q : Nat}
    (h : (getPromiseRec st q).state ≠ .absent) : q < st.objects.length := by
  by_contra hc
  push_neg at hc
  rw [getPromiseRec_out_of_range hc] at h
  exact h rfl

/-- Any operation that leaves all already-allocated heap slots unchanged
is a legal evolution for every promise record. -/
theorem stepOK_of_agree_lt {st st' : Machine}
    (h : ∀ q, q < st.objects.length → getPromiseRec st' q = getPromiseRec st q) (q : Nat) :
    stepOK (getPromiseRec st q) (getPromiseRec st' q) := by
  by_cases hq : q < st.objects.length
  · rw [h q hq]; exact stepOK_refl _
  · refine Or.inr (Or.inr (Or.inr (Or.inl ?_)))
    rw [getPromiseRec_out_of_range (by omega)]
    rfl

theorem stepOK_fulfillPromise (p : Nat) (v : Value) (st : Machine) (q : Nat) :
    stepOK (getPromiseRec st q) (getPromiseRec (fulfillPromise p v st) q) := by
  simp only [fulfillPromise]
  split
  · exact stepOK_refl _
  · rename_i hpend
    rw [getPromiseRec_queueOnly (queueOnly_trigger _ _ _)]
    simp only [Decidable.not_not] at hpend
    by_cases hq : p = q
    · subst hq
      rw [getPromiseRec_set_self st p _ (lt_length_of_state_ne_absent (by rw [hpend]; simp))]
      exact Or.inr (Or.inr (Or.inl ⟨hpend, Or.inl rfl⟩))
    · rw [getPromiseRec_set_ne st p _ hq]
      exact stepOK_refl _

theorem stepOK_rejectPromise (p : Nat) (v : Value) (st : Machine) (q : Nat) :
    stepOK (getPromiseRec st q) (getPromiseRec (rejectPromise p v st) q) := by
  simp only [rejectPromise]
  split
  · exact stepOK_refl _
  · rename_i hpend
    rw [getPromiseRec_queueOnly (queueOnly_trigger _ _ _)]
    simp only [Decidable.not_not] at hpend
    by_cases hq : p = q
    · subst hq
      rw [getPromiseRec_set_self st p _ (lt_length_of_state_ne_absent (by rw [hpend]; simp))]
      exact Or.inr (Or.inr (Or.inl ⟨hpend, Or.inr rfl⟩))
    · rw [getPromiseRec_set_ne st p _ hq]
      exact stepOK_refl _

theorem stepOK_resolveFn (f p : Nat) (v : Value) (st : Machine) (q : Nat) :
    stepOK (getPromiseRec st q) (getPromiseRec (resolveFn f p v st) q) := by
  simp only [resolveFn]
  split
  · exact stepOK_refl _
  · split
    · have h := stepOK_rejectPromise p (.typeError "You cannot resolve a promise with itself")
        (setFlag st f true) q
      rwa [getPromiseRec_setFlag] at h
    · split
      · have h := stepOK_fulfillPromise p v (setFlag st f true) q
        rwa [getPromiseRec_setFlag] at h
      · split
        · rename_i e _
          have h := stepOK_rejectPromise p e (setFlag st f true) q
          rwa [getPromiseRec_setFlag] at h
        · have h := stepOK_fulfillPromise p v (setFlag st f true) q
          rwa [getPromiseRec_setFlag] at h
        · rw [getPromiseRec_queueOnly (queueOnly_enqueueJob _ _)]
          exact stepOK_refl _

theorem stepOK_rejectFn (f p : Nat) (v : Value) (st : Machine) (q : Nat) :
    stepOK (getPromiseRec st q) (getPromiseRec (rejectFn f p v st) q) := by
  simp only [rejectFn]
  split
  · exact stepOK_refl _
  · have h := stepOK_rejectPromise p v (setFlag st f true) q
    rwa [getPromiseRec_setFlag] at h

theorem stepOK_pairCallRun (cap : Cap) (c : PairCall) (st : Machine) (q : Nat) :
    stepOK (getPromiseRec st q) (getPromiseRec (pairCallRun cap c st) q) := by
  cases c with
  | res v => exact stepOK_resolveFn _ _ v st q
  | rej v => exact stepOK_rejectFn _ _ v st q

theorem stepOK_foldl_pairCalls (l : List PairCall) (cap : Cap) (st : Machine) (q : Nat) :
    stepOK (getPromiseRec st q)
      (getPromiseRec (l.foldl (fun s a => pairCallRun cap a s) st) q) := by
  induction l generalizing st with
  | nil => exact stepOK_refl _
  | cons a t ih =>
    exact stepOK_trans (stepOK_pairCallRun cap a st q) (ih (pairCallRun cap a st))

theorem getPromiseRec_congr {st st' : Machine} {q : Nat}
    (h : lget? st'.objects q = lget? st.objects q) :
    getPromiseRec st' q = getPromiseRec st q := by
  unfold getPromiseRec; rw [h]

theorem lget?_alloc_write (l : List α) (a b c : α) (q : Nat) (h : q < l.length) :
    lget? (lset (lset (l ++ [a]) l.length b) l.length c) q = lget? l q := by
  rw [lget?_lset_ne _ _ _ _ (by omega), lget?_lset_ne _ _ _ _ (by omega),
    lget?_append_lt _ _ _ h]

theorem newPromiseCapability_agree_lt (st : Machine) (q : Nat) (h : q < st.objects.length) :
    getPromiseRec (newPromiseCapability st).2 q = getPromiseRec st q := by
  refine getPromiseRec_congr ?_
  simp only [newPromiseCapability, setPromiseRec]
  exact lget?_alloc_write st.objects _ _ _ q h

theorem stepOK_newPromiseCapability (st : Machine) (q : Nat) :
    stepOK (getPromiseRec st q) (getPromiseRec (newPromiseCapability st).2 q) :=
  stepOK_of_agree_lt (fun q' hq' => newPromiseCapability_agree_lt st q' hq') q

theorem stepOK_promiseConstructor (ex : ExecutorSpec) (st : Machine) (q : Nat) :
    stepOK (getPromiseRec st q) (getPromiseRec (promiseConstructor ex st).2 q) := by
  cases ex with
  | notCallable v =>
    refine stepOK_of_agree_lt (fun q' hq' => getPromiseRec_congr ?_) q
    simp only [promiseConstructor, setPromiseRec]
    rw [lget?_lset_ne _ _ _ _ (by omega), lget?_append_lt _ _ _ hq']
  | callable b =>
    have hpre : ∀ q', q' < st.objects.length →
        getPromiseRec
          { setPromiseRec (setPromiseRec
              { st with objects := st.objects ++ [.promiseObj ⟨.absent, none, none, none⟩] }
              st.objects.length ⟨.undefWritten, none, none, none⟩)
              st.objects.length ⟨.pending, none, some [], some []⟩ with
            flags := st.flags ++ [false],
            userPairs := st.userPairs ++ [⟨st.flags.length, st.objects.length⟩] } q'
          = getPromiseRec st q' := by
      intro q' hq'
      refine getPromiseRec_congr ?_
      simp only [setPromiseRec]
      exact lget?_alloc_write st.objects _ _ _ q' hq'
    have h1 := stepOK_of_agree_lt hpre q
    have h2 := stepOK_foldl_pairCalls b.actions ⟨st.flags.length, st.objects.length⟩
      { setPromiseRec (setPromiseRec
          { st with objects := st.objects ++ [.promiseObj ⟨.absent, none, none, none⟩] }
          st.objects.length ⟨.undefWritten, none, none, none⟩)
          st.objects.length ⟨.pending, none, some [], some []⟩ with
        flags := st.flags ++ [false],
        userPairs := st.userPairs ++ [⟨st.flags.length, st.objects.length⟩] } q
    have h12 := stepOK_trans h1 h2
    cases hta : b.throwsAfter with
    | some e =>
      simp only [promiseConstructor, hta]
      exact h12
    | none =>
      simp only [promiseConstructor, hta]
      exact h12

theorem stepOK_performPromiseThen (p : Nat) (onF onR : HandlerArg) (cap : Cap)
    (st : Machine) (q : Nat) :
    stepOK (getPromiseRec st q) (getPromiseRec (performPromiseThen p onF onR cap st) q) := by
  simp only [performPromiseThen]
  split
  · rename_i hpend
    by_cases hq : p = q
    · subst hq
      rw [getPromiseRec_set_self st p _ (lt_length_of_state_ne_absent (by rw [hpend]; simp))]
      exact Or.inr (Or.inl ⟨hpend, hpend⟩)
    · rw [getPromiseRec_set_ne st p _ hq]
      exact stepOK_refl _
  · rw [getPromiseRec_queueOnly (queueOnly_enqueueJob _ _)]
    exact stepOK_refl _
  · rw [getPromiseRec_queueOnly (queueOnly_enqueueJob _ _)]
    exact stepOK_refl _
  · exact stepOK_refl _

theorem stepOK_thenCall (p : Nat) (onF onR : HandlerArg) (st : Machine) (q : Nat) :
    stepOK (getPromiseRec st q) (getPromiseRec (thenCall p onF onR st).2 q) := by
  simp only [thenCall]
  exact stepOK_trans (stepOK_newPromiseCapability st q)
    (stepOK_performPromiseThen p onF onR _ _ q)

theorem stepOK_promiseReactionJob (cap : Cap) (h : Handler) (arg : Value)
    (st : Machine) (q : Nat) :
    stepOK (getPromiseRec st q) (getPromiseRec (promiseReactionJob cap h arg st) q) := by
  cases h with
  | user f =>
    simp only [promiseReactionJob]
    cases f arg with
    | ok r => exact stepOK_resolveFn _ _ r st q
    | error e =>
      exact stepOK_trans (stepOK_rejectFn _ _ e st q) (stepOK_resolveFn _ _ _ _ q)
  | defaultResolve c =>
    exact stepOK_trans (stepOK_resolveFn _ _ c st q) (stepOK_resolveFn _ _ _ _ q)
  | defaultReject c =>
    exact stepOK_trans (stepOK_rejectFn _ _ c st q) (stepOK_resolveFn _ _ _ _ q)
  | resolver f' p' =>
    exact stepOK_trans (stepOK_resolveFn _ _ arg st q) (stepOK_resolveFn _ _ _ _ q)
  | rejecter f' p' =>
    exact stepOK_trans (stepOK_rejectFn _ _ arg st q) (stepOK_resolveFn _ _ _ _ q)

theorem stepOK_promiseResolveThenableJob (p : Nat) (tk : ThenKind) (st : Machine) (q : Nat) :
    stepOK (getPromiseRec st q) (getPromiseRec (promiseResolveThenableJob p tk st) q) := by
  have hrec : ∀ r, getPromiseRec { st with flags := st.flags ++ [false] } r
      = getPromiseRec st r := fun _ => rfl
  cases tk with
  | behavior b =>
    cases b with
    | callRes v =>
      simp only [promiseResolveThenableJob]
      have h := stepOK_resolveFn st.flags.length p v { st with flags := st.flags ++ [false] } q
      rwa [hrec] at h
    | callRej v =>
      simp only [promiseResolveThenableJob]
      have h := stepOK_rejectFn st.flags.length p v { st with flags := st.flags ++ [false] } q
      rwa [hrec] at h
    | throwE e =>
      simp only [promiseResolveThenableJob]
      have h := stepOK_rejectFn st.flags.length p e { st with flags := st.flags ++ [false] } q
      rwa [hrec] at h
    | inert =>
      simp only [promiseResolveThenableJob]
      rw [hrec]
      exact stepOK_refl _
  | promiseThen target =>
    simp only [promiseResolveThenableJob]
    have h := stepOK_thenCall target
      (.func (.resolver st.flags.length p)) (.func (.rejecter st.flags.length p))
      { st with flags := st.flags ++ [false] } q
    rwa [hrec] at h

theorem stepOK_execJob (j : Job) (st : Machine) (q : Nat) :
    stepOK (getPromiseRec st q) (getPromiseRec (execJob j st) q) := by
  cases j with
  | reactionJob cap h arg => exact stepOK_promiseReactionJob cap h arg st q
  | thenableJob p r tk => exact stepOK_promiseResolveThenableJob p tk st q

theorem stepOK_drainLoop (fuel i : Nat) (st : Machine) (q : Nat) :
    stepOK (getPromiseRec st q) (getPromiseRec (drainLoop fuel i st) q) := by
  induction fuel generalizing i st with
  | zero => exact stepOK_refl _
  | succ f ih =>
    simp only [drainLoop]
    cases hg : lget? st.queue i with
    | some j => exact stepOK_trans (stepOK_execJob j st q) (ih (i + 1) (execJob j st))
    | none => exact stepOK_refl _

theorem stepOK_queueRun (fuel : Nat) (st : Machine) (q : Nat) :
    stepOK (getPromiseRec st q) (getPromiseRec (queueRun fuel st) q) := by
  simp only [queueRun]
  split
  · exact stepOK_refl _
  · exact stepOK_drainLoop fuel 0 { st with running := true } q

theorem stepOK_fireAsap (fuel : Nat) (st : Machine) (q : Nat) :
    stepOK (getPromiseRec st q) (getPromiseRec (fireAsap fuel st) q) := by
  simp only [fireAsap]
  split
  · exact stepOK_refl _
  · exact stepOK_queueRun fuel { st with scheduled := st.scheduled - 1 } q

theorem stepOK_execCmd (c : Cmd) (st : Machine) (q : Nat) :
    stepOK (getPromiseRec st q) (getPromiseRec (execCmd c st) q) := by
  cases c with
  | construct ex => exact stepOK_promiseConstructor ex st q
  | callThen t onF onR => exact stepOK_thenCall t _ _ st q
  | callAll it =>
    simp only [execCmd, promiseAll]
    exact stepOK_newPromiseCapability st q
  | callStaticReject r =>
    simp only [execCmd, promiseStaticReject]
    exact stepOK_trans (stepOK_newPromiseCapability st q) (stepOK_rejectFn _ _ r _ q)
  | lateCall i pc =>
    simp only [execCmd]
    cases lget? st.userPairs i with
    | some cap => exact stepOK_pairCallRun cap pc st q
    | none => exact stepOK_refl _
  | asapFire fuel => exact stepOK_fireAsap fuel st q

/-- Across any sequence of public-surface steps, every promise record
evolves legally: unchanged, pending to pending, pending to settled, or
initialisation of a not-yet-constructed slot. -/
theorem stepOK_execCmds (cs : List Cmd) (st : Machine) (q : Nat) :
    stepOK (getPromiseRec st q) (getPromiseRec (execCmds cs st) q) := by
  induction cs generalizing st with
  | nil => exact stepOK_refl _
  | cons c t ih =>
    exact stepOK_trans (stepOK_execCmd c st q) (ih (execCmd c st))

/-! ### Claim C3: settle-once -/

/-- The C3 scenario: an executor that calls `resolve('a')` and then
`resolve('b')` synchronously. -/
def c3Scenario : Machine :=
  execCmds [.construct (.callable ⟨[.res (.strV "a"), .res (.strV "b")], none⟩)] initMachine

/-- C3: settle-once.  (i) Once a pair's `alreadyResolved` record is set,
any sequence of calls to its `resolve`/`reject` returns with the machine
bit-for-bit unchanged — no state change, no job enqueued, no drain request
scheduled.  (ii) Any call of the pair leaves the record set, so the first
effective call closes the pair.  (iii) Across every sequence of
public-surface steps, every promise record evolves along `stepOK` —  in
particular the state moves only pending→pending, pending→fulfilled or
pending→rejected once constructed; and (iv) a settled record (state and
result) is never modified again.  (v) Concretely, `resolve('a')` then
`resolve('b')` inside one executor fulfils with `'a'` only. -/
theorem c3_settle_once :
    (∀ (st : Machine) (f p : Nat) (calls : List PairCall), getFlag st f = true →
      calls.foldl (fun s c => pairCallRun ⟨f, p⟩ c s) st = st) ∧
    (∀ (st : Machine) (f p : Nat) (c : PairCall), f < st.flags.length →
      getFlag (pairCallRun ⟨f, p⟩ c st) f = true) ∧
    (∀ (cs : List Cmd) (st : Machine) (q : Nat),
      stepOK (getPromiseRec st q) (getPromiseRec (execCmds cs st) q)) ∧
    (∀ (cs : List Cmd) (st : Machine) (q : Nat),
      (getPromiseRec st q).state = .fulfilled ∨ (getPromiseRec st q).state = .rejected →
      getPromiseRec (execCmds cs st) q = getPromiseRec st q) ∧
    ((getPromiseRec c3Scenario 0).state = PState.fulfilled ∧
      (getPromiseRec c3Scenario 0).result = some (.strV "a")) := by
  refine ⟨?_, ?_, stepOK_execCmds, ?_, rfl, rfl⟩
  · intro st f p calls hflag
    induction calls with
    | nil => rfl
    | cons c t ih =>
      have hone : pairCallRun ⟨f, p⟩ c st = st := by
        cases c with
        | res v => simp [pairCallRun, resolveFn, hflag]
        | rej v => simp [pairCallRun, rejectFn, hflag]
      rw [List.foldl_cons, hone]
      exact ih
  · intro st f p c hlen
    cases c with
    | res v => exact getFlag_resolveFn f p v st hlen
    | rej v => exact getFlag_rejectFn f p v st hlen
  · intro cs st q hs
    exact stepOK_settled (stepOK_execCmds cs st q) hs

/-- C3 witness: the settle-once theorem instantiated at concrete
machines — a set record absorbs a resolve burst; a fresh record is set by
one call; a settled promise survives a drain unchanged. -/
theorem c3_settle_once_witness :
    ([PairCall.res (.strV "x"), PairCall.rej (.strV "y")].foldl
        (fun s c => pairCallRun ⟨0, 0⟩ c s) ⟨[], [true], [], false, 0, [], false⟩
      = ⟨[], [true], [], false, 0, [], false⟩) ∧
    (getFlag (pairCallRun ⟨0, 0⟩ (.res .undef) ⟨[], [false], [], false, 0, [], false⟩) 0
      = true) ∧
    stepOK (getPromiseRec initMachine 0)
      (getPromiseRec (execCmds [.construct (.callable ⟨[.res .undef], none⟩)] initMachine) 0) ∧
    (getPromiseRec
        (execCmds [.asapFire 1]
          ⟨[.promiseObj ⟨.fulfilled, some (.strV "z"), none, none⟩], [], [], false, 0, [], false⟩) 0
      = getPromiseRec
          ⟨[.promiseObj ⟨.fulfilled, some (.strV "z"), none, none⟩], [], [], false, 0, [], false⟩ 0) :=
  ⟨c3_settle_once.1 ⟨[], [true], [], false, 0, [], false⟩ 0 0 _ rfl,
   c3_settle_once.2.1 ⟨[], [false], [], false, 0, [], false⟩ 0 0 (.res .undef) (by decide),
   c3_settle_once.2.2.1 [.construct (.callable ⟨[.res .undef], none⟩)] initMachine 0,
   c3_settle_once.2.2.2.1 [.asapFire 1]
     ⟨[.promiseObj ⟨.fulfilled, some (.strV "z"), none, none⟩], [], [], false, 0, [], false⟩ 0
     (Or.inl rfl)⟩

/-! ### Claim C7: throwing handlers -/

/-- The C7 scenario: a promise fulfilled synchronously, then two `then`
registrations — the first with a handler that throws "E", the second with
one returning "two" — followed by the drain that runs both jobs. -/
def c7Scenario : Machine :=
  execCmds
    [.construct (.callable ⟨[.res (.numV (.int 1))], none⟩),
     .callThen 0 (.ufun (fun _ => .error (.strV "E"))) (.unotCallable .undef),
     .callThen 0 (.ufun (fun _ => .ok (.strV "two"))) (.unotCallable .undef),
     .asapFire 10]
    initMachine

/-- C7: a reaction handler that throws `E` is caught inside
`promiseReactionJob` — the derived promise is rejected with `E` (for any
handler, any state with the derived promise pending and its pair fresh),
and the job itself completes normally, so the remaining jobs of the same
drain still execute: in the concrete two-job drain the first handler
throws yet the second derived promise is still settled. -/
theorem c7_thrown_handler_rejects_derived :
    (∀ (st : Machine) (fn : Value → Except Value Value) (e arg : Value) (f p : Nat),
      fn arg = .error e →
      getFlag st f = false →
      f < st.flags.length →
      (getPromiseRec st p).state = .pending →
      (getPromiseRec (promiseReactionJob ⟨f, p⟩ (.user fn) arg st) p).state = .rejected ∧
      (getPromiseRec (promiseReactionJob ⟨f, p⟩ (.user fn) arg st) p).result = some e) ∧
    ((getPromiseRec c7Scenario 1).state = PState.rejected ∧
      (getPromiseRec c7Scenario 1).result = some (.strV "E") ∧
      (getPromiseRec c7Scenario 2).state = PState.fulfilled ∧
      (getPromiseRec c7Scenario 2).result = some (.strV "two")) := by
  refine ⟨?_, rfl, rfl, rfl, rfl⟩
  intro st fn e arg f p hfn hflag hlen hpend
  have hp : p < st.objects.length :=
    lt_length_of_state_ne_absent (by rw [hpend]; simp)
  have hRF : rejectFn f p e st
      = triggerPromiseReactions ((getPromiseRec st p).rejectReactions.getD []) e
          (setPromiseRec (setFlag st f true) p ⟨.rejected, some e, none, none⟩) := by
    simp only [rejectFn, hflag]
    simp only [rejectPromise, getPromiseRec_setFlag, hpend]
    simp
  have hrec1 : getPromiseRec (rejectFn f p e st) p = ⟨.rejected, some e, none, none⟩ := by
    rw [hRF, getPromiseRec_queueOnly (queueOnly_trigger _ _ _)]
    exact getPromiseRec_set_self (setFlag st f true) p _ hp
  have hflag1 : getFlag (rejectFn f p e st) f = true := getFlag_rejectFn f p e st hlen
  have hfinal : promiseReactionJob ⟨f, p⟩ (.user fn) arg st = rejectFn f p e st := by
    simp only [promiseReactionJob, hfn]
    simp [resolveFn, hflag1]
  rw [hfinal, hrec1]
  exact ⟨rfl, rfl⟩

/-- C7 witness: the general rejection theorem at a concrete machine —
one pending derived promise, fresh pair, a handler that throws "boom". -/
theorem c7_thrown_handler_rejects_derived_witness :
    (getPromiseRec
        (promiseReactionJob ⟨0, 0⟩ (.user (fun _ => .error (.strV "boom"))) .undef
          ⟨[.promiseObj ⟨.pending, none, some [], some []⟩], [false], [], false, 0, [], false⟩)
        0).state = PState.rejected ∧
    (getPromiseRec
        (promiseReactionJob ⟨0, 0⟩ (.user (fun _ => .error (.strV "boom"))) .undef
          ⟨[.promiseObj ⟨.pending, none, some [], some []⟩], [false], [], false, 0, [], false⟩)
        0).result = some (.strV "boom") :=
  c7_thrown_handler_rejects_derived.1
    ⟨[.promiseObj ⟨.pending, none, some [], some []⟩], [false], [], false, 0, [], false⟩
    (fun _ => .error (.strV "boom")) (.strV "boom") .undef 0 0 rfl rfl (by decide) rfl

/-! ### Claim C10: the `Promise.all` promise can never settle

`Avoids p st` says the machine holds no reference through which promise
`p` could ever be settled: no queued job targets `p`, no stored reaction's
capability or resolving-function handler targets `p`, and no resolving
pair retained by user code targets `p`.  Together with `p` being pending
(`Inv`), this is preserved by every public-surface step, because the only
way to settle a promise is through a resolving pair for it, and the
machine state is the only place such pairs survive. -/

/-- The handler holds no resolving function for promise `p`. -/
def hAvoids (p : Nat) : Handler → Prop
  | .resolver _ q => q ≠ p
  | .rejecter _ q => q ≠ p
  | _ => True

/-- The reaction can neither settle `p` through its capability nor
through its handler. -/
def rAvoids (p : Nat) (r : Reaction) : Prop :=
  r.capability.pIdx ≠ p ∧ hAvoids p r.handler

/-- The queued job cannot settle `p`. -/
def jAvoids (p : Nat) : Job → Prop
  | .reactionJob cap h _ => cap.pIdx ≠ p ∧ hAvoids p h
  | .thenableJob q _ _ => q ≠ p

/-- No reaction stored on the heap object can settle `p`. -/
def oAvoids (p : Nat) : ObjRec → Prop
  | .promiseObj rec =>
    (∀ r ∈ rec.fulfillReactions.getD [], rAvoids p r) ∧
    (∀ r ∈ rec.rejectReactions.getD [], rAvoids p r)
  | .plainObj _ => True

/-- Nothing anywhere in the machine can settle `p`. -/
def Avoids (p : Nat) (st : Machine) : Prop :=
  (∀ j ∈ st.queue, jAvoids p j) ∧
  (∀ o ∈ st.objects, oAvoids p o) ∧
  (∀ cap ∈ st.userPairs, cap.pIdx ≠ p)

/-- Promise `p` is pending and unsettleable. -/
def Inv (p : Nat) (st : Machine) : Prop :=
  (getPromiseRec st p).state = .pending ∧ Avoids p st

theorem avoids_enqueueJob {p : Nat} {j : Job} {st : Machine}
    (hj : jAvoids p j) (h : Avoids p st) : Avoids p (enqueueJob j st) := by
  obtain ⟨hq, ho, hu⟩ := h
  have hqueue : (enqueueJob j st).queue = st.queue ++ [j] := by
    unfold enqueueJob; split <;> rfl
  have hobj := (queueOnly_enqueueJob j st).1
  have huser := (queueOnly_enqueueJob j st).2.2.1
  refine ⟨?_, ?_, ?_⟩
  · intro x hx
    rw [hqueue] at hx
    rcases List.mem_append.mp hx with hx | hx
    · exact hq x hx
    · rcases List.mem_singleton.mp hx with rfl
      exact hj
  · intro o hob; rw [hobj] at hob; exact ho o hob
  · intro cap hc; rw [huser] at hc; exact hu cap hc

theorem avoids_foldl_enqueue {α : Type} {p : Nat} {jb : Job} (l : List α) {st : Machine}
    (hj : jAvoids p jb) (h : Avoids p st) :
    Avoids p (l.foldl (fun s _ => enqueueJob jb s) st) := by
  induction l generalizing st with
  | nil => exact h
  | cons a t ih => exact ih (avoids_enqueueJob hj h)

theorem avoids_trigger {p : Nat} {rs : List Reaction} {arg : Value} {st : Machine}
    (hrs : ∀ r ∈ rs, rAvoids p r) (h : Avoids p st) :
    Avoids p (triggerPromiseReactions rs arg st) := by
  unfold triggerPromiseReactions
  cases hl : lastOf rs with
  | none => exact h
  | some last =>
    have hlr := hrs last (lastOf_mem hl)
    exact avoids_foldl_enqueue rs ⟨hlr.1, hlr.2⟩ h

theorem avoids_setFlag {p f : Nat} {b : Bool} {st : Machine}
    (h : Avoids p st) : Avoids p (setFlag st f b) := h

theorem avoids_setPromiseRec {p q : Nat} {r : PromiseRec} {st : Machine}
    (hr : oAvoids p (.promiseObj r)) (h : Avoids p st) :
    Avoids p (setPromiseRec st q r) := by
  obtain ⟨hq, ho, hu⟩ := h
  refine ⟨hq, ?_, hu⟩
  intro o hob
  rcases mem_of_mem_lset hob with hob | rfl
  · exact ho o hob
  · exact hr

theorem avoids_own_reactions {p q : Nat} {st : Machine}
    (h : Avoids p st) :
    (∀ r ∈ (getPromiseRec st q).fulfillReactions.getD [], rAvoids p r) ∧
    (∀ r ∈ (getPromiseRec st q).rejectReactions.getD [], rAvoids p r) := by
  unfold getPromiseRec
  cases hl : lget? st.objects q with
  | none => simp [dummyRec]
  | some o =>
    cases o with
    | promiseObj rec => exact h.2.1 _ (mem_of_lget? hl)
    | plainObj tp => simp [dummyRec]

theorem avoids_fulfillPromise {p : Nat} (q : Nat) (v : Value) {st : Machine}
    (h : Avoids p st) : Avoids p (fulfillPromise q v st) := by
  simp only [fulfillPromise]
  split
  · exact h
  · exact avoids_trigger (avoids_own_reactions h).1
      (avoids_setPromiseRec (by simp [oAvoids]) h)

theorem avoids_rejectPromise {p : Nat} (q : Nat) (v : Value) {st : Machine}
    (h : Avoids p st) : Avoids p (rejectPromise q v st) := by
  simp only [rejectPromise]
  split
  · exact h
  · exact avoids_trigger (avoids_own_reactions h).2
      (avoids_setPromiseRec (by simp [oAvoids]) h)

theorem avoids_resolveFn {p f q : Nat} (v : Value) {st : Machine}
    (hq : q ≠ p) (h : Avoids p st) : Avoids p (resolveFn f q v st) := by
  simp only [resolveFn]
  split
  · exact h
  · split
    · exact avoids_rejectPromise q _ (avoids_setFlag h)
    · split
      · exact avoids_fulfillPromise q v (avoids_setFlag h)
      · split
        · exact avoids_rejectPromise q _ (avoids_setFlag h)
        · exact avoids_fulfillPromise q v (avoids_setFlag h)
        · exact avoids_enqueueJob (by simpa [jAvoids] using hq) (avoids_setFlag h)

theorem avoids_rejectFn {p f q : Nat} (v : Value) {st : Machine}
    (_hq : q ≠ p) (h : Avoids p st) : Avoids p (rejectFn f q v st) := by
  simp only [rejectFn]
  split
  · exact h
  · exact avoids_rejectPromise q v (avoids_setFlag h)

theorem avoids_pairCallRun {p : Nat} {cap : Cap} (c : PairCall) {st : Machine}
    (hcap : cap.pIdx ≠ p) (h : Avoids p st) : Avoids p (pairCallRun cap c st) := by
  cases c with
  | res v => exact avoids_resolveFn v hcap h
  | rej v => exact avoids_rejectFn v hcap h

theorem avoids_foldl_pairCalls {p : Nat} {cap : Cap} (l : List PairCall) {st : Machine}
    (hcap : cap.pIdx ≠ p) (h : Avoids p st) :
    Avoids p (l.foldl (fun s a => pairCallRun cap a s) st) := by
  induction l generalizing st with
  | nil => exact h
  | cons a t ih => exact ih (avoids_pairCallRun a hcap h)

theorem getPromiseRec_fulfill_ne {q p : Nat} (hq : q ≠ p) (v : Value) (st : Machine) :
    getPromiseRec (fulfillPromise q v st) p = getPromiseRec st p := by
  simp only [fulfillPromise]
  split
  · rfl
  · rw [getPromiseRec_queueOnly (queueOnly_trigger _ _ _), getPromiseRec_set_ne _ _ _ hq]

theorem getPromiseRec_reject_ne {q p : Nat} (hq : q ≠ p) (v : Value) (st : Machine) :
    getPromiseRec (rejectPromise q v st) p = getPromiseRec st p := by
  simp only [rejectPromise]
  split
  · rfl
  · rw [getPromiseRec_queueOnly (queueOnly_trigger _ _ _), getPromiseRec_set_ne _ _ _ hq]

theorem getPromiseRec_resolveFn_ne {f q p : Nat} (hq : q ≠ p) (v : Value) (st : Machine) :
    getPromiseRec (resolveFn f q v st) p = getPromiseRec st p := by
  simp only [resolveFn]
  split
  · rfl
  · split
    · rw [getPromiseRec_reject_ne hq, getPromiseRec_setFlag]
    · split
      · rw [getPromiseRec_fulfill_ne hq, getPromiseRec_setFlag]
      · split
        · rw [getPromiseRec_reject_ne hq, getPromiseRec_setFlag]
        · rw [getPromiseRec_fulfill_ne hq, getPromiseRec_setFlag]
        · rw [getPromiseRec_queueOnly (queueOnly_enqueueJob _ _), getPromiseRec_setFlag]

theorem getPromiseRec_rejectFn_ne {f q p : Nat} (hq : q ≠ p) (v : Value) (st : Machine) :
    getPromiseRec (rejectFn f q v st) p = getPromiseRec st p := by
  simp only [rejectFn]
  split
  · rfl
  · rw [getPromiseRec_reject_ne hq, getPromiseRec_setFlag]

theorem getPromiseRec_pairCall_ne {cap : Cap} {p : Nat} (hq : cap.pIdx ≠ p) (c : PairCall)
    (st : Machine) :
    getPromiseRec (pairCallRun cap c st) p = getPromiseRec st p := by
  cases c with
  | res v => exact getPromiseRec_resolveFn_ne hq v st
  | rej v => exact getPromiseRec_rejectFn_ne hq v st

theorem getPromiseRec_foldl_pairCalls_ne {cap : Cap} {p : Nat} (hq : cap.pIdx ≠ p)
    (l : List PairCall) (st : Machine) :
    getPromiseRec (l.foldl (fun s a => pairCallRun cap a s) st) p = getPromiseRec st p := by
  induction l generalizing st with
  | nil => rfl
  | cons a t ih => rw [List.foldl_cons, ih, getPromiseRec_pairCall_ne hq]

theorem inv_fulfillPromise {p q : Nat} (hq : q ≠ p) (v : Value) {st : Machine}
    (h : Inv p st) : Inv p (fulfillPromise q v st) :=
  ⟨by rw [getPromiseRec_fulfill_ne hq]; exact h.1, avoids_fulfillPromise q v h.2⟩

theorem inv_rejectPromise {p q : Nat} (hq : q ≠ p) (v : Value) {st : Machine}
    (h : Inv p st) : Inv p (rejectPromise q v st) :=
  ⟨by rw [getPromiseRec_reject_ne hq]; exact h.1, avoids_rejectPromise q v h.2⟩

theorem inv_resolveFn {p f q : Nat} (hq : q ≠ p) (v : Value) {st : Machine}
    (h : Inv p st) : Inv p (resolveFn f q v st) :=
  ⟨by rw [getPromiseRec_resolveFn_ne hq]; exact h.1, avoids_resolveFn v hq h.2⟩

theorem inv_rejectFn {p f q : Nat} (hq : q ≠ p) (v : Value) {st : Machine}
    (h : Inv p st) : Inv p (rejectFn f q v st) :=
  ⟨by rw [getPromiseRec_rejectFn_ne hq]; exact h.1, avoids_rejectFn v hq h.2⟩

theorem inv_pairCallRun {p : Nat} {cap : Cap} (hq : cap.pIdx ≠ p) (c : PairCall) {st : Machine}
    (h : Inv p st) : Inv p (pairCallRun cap c st) :=
  ⟨by rw [getPromiseRec_pairCall_ne hq]; exact h.1, avoids_pairCallRun c hq h.2⟩

theorem inv_foldl_pairCalls {p : Nat} {cap : Cap} (hq : cap.pIdx ≠ p) (l : List PairCall)
    {st : Machine} (h : Inv p st) :
    Inv p (l.foldl (fun s a => pairCallRun cap a s) st) :=
  ⟨by rw [getPromiseRec_foldl_pairCalls_ne hq]; exact h.1, avoids_foldl_pairCalls l hq h.2⟩

theorem avoids_newPromiseCapability {p : Nat} {st : Machine}
    (h : Avoids p st) : Avoids p (newPromiseCapability st).2 := by
  obtain ⟨hq, ho, hu⟩ := h
  refine ⟨fun j hj => hq j hj, ?_, fun cap hc => hu cap hc⟩
  intro o hob
  simp only [newPromiseCapability, setPromiseRec] at hob
  rcases mem_of_mem_lset hob with hob | rfl
  · rcases mem_of_mem_lset hob with hob | rfl
    · rcases List.mem_append.mp hob with hob | hob
      · exact ho o hob
      · rcases List.mem_singleton.mp hob with rfl
        simp [oAvoids]
    · simp [oAvoids]
  · simp [oAvoids]

theorem inv_newPromiseCapability {p : Nat} {st : Machine}
    (h : Inv p st) : Inv p (newPromiseCapability st).2 := by
  have hp : p < st.objects.length := lt_length_of_state_ne_absent (by rw [h.1]; simp)
  exact ⟨by rw [newPromiseCapability_agree_lt st p hp]; exact h.1,
    avoids_newPromiseCapability h.2⟩

/-- The handler argument holds no resolving function for `p`. -/
def haAvoids (p : Nat) : HandlerArg → Prop
  | .func hh => hAvoids p hh
  | .notCallable _ => True

theorem inv_performPromiseThen {p : Nat} (t : Nat) (onF onR : HandlerArg) (cap : Cap)
    {st : Machine} (hcap : cap.pIdx ≠ p)
    (honF : haAvoids p onF) (honR : haAvoids p onR) (h : Inv p st) :
    Inv p (performPromiseThen t onF onR cap st) := by
  have hchooseF : hAvoids p
      (selectHandler onF (.defaultResolve ((getPromiseRec st t).result.getD .undef))) := by
    cases onF with
    | func hh => exact honF
    | notCallable v => simp [selectHandler, hAvoids]
  have hchooseR : hAvoids p
      (selectHandler onR (.defaultReject ((getPromiseRec st t).result.getD .undef))) := by
    cases onR with
    | func hh => exact honR
    | notCallable v => simp [selectHandler, hAvoids]
  obtain ⟨hpend, havoid⟩ := h
  simp only [performPromiseThen]
  split
  · rename_i hts
    constructor
    · by_cases ht : t = p
      · subst ht
        rw [getPromiseRec_set_self st t _ (lt_length_of_state_ne_absent (by rw [hts]; simp))]
        exact hts
      · rw [getPromiseRec_set_ne st t _ ht]
        exact hpend
    · refine avoids_setPromiseRec ?_ havoid
      constructor
      · intro r hr
        rcases List.mem_append.mp hr with hr | hr
        · exact (avoids_own_reactions havoid).1 r hr
        · rcases List.mem_singleton.mp hr with rfl
          exact ⟨hcap, hchooseF⟩
      · intro r hr
        rcases List.mem_append.mp hr with hr | hr
        · exact (avoids_own_reactions havoid).2 r hr
        · rcases List.mem_singleton.mp hr with rfl
          exact ⟨hcap, hchooseR⟩
  · exact ⟨by rw [getPromiseRec_queueOnly (queueOnly_enqueueJob _ _)]; exact hpend,
      avoids_enqueueJob ⟨hcap, hchooseF⟩ havoid⟩
  · exact ⟨by rw [getPromiseRec_queueOnly (queueOnly_enqueueJob _ _)]; exact hpend,
      avoids_enqueueJob ⟨hcap, hchooseR⟩ havoid⟩
  · exact ⟨hpend, havoid⟩

theorem inv_thenCall {p : Nat} (t : Nat) (onF onR : HandlerArg) {st : Machine}
    (honF : haAvoids p onF) (honR : haAvoids p onR) (h : Inv p st) :
    Inv p (thenCall t onF onR st).2 := by
  have hp : p < st.objects.length := lt_length_of_state_ne_absent (by rw [h.1]; simp)
  have hcap : (newPromiseCapability st).1.pIdx = st.objects.length := rfl
  simp only [thenCall]
  exact inv_performPromiseThen t onF onR _ (by rw [hcap]; omega) honF honR
    (inv_newPromiseCapability h)

theorem inv_promiseReactionJob {p : Nat} {cap : Cap} {h : Handler} (arg : Value)
    {st : Machine} (hcap : cap.pIdx ≠ p) (hh : hAvoids p h) (hinv : Inv p st) :
    Inv p (promiseReactionJob cap h arg st) := by
  cases h with
  | user f =>
    simp only [promiseReactionJob]
    cases f arg with
    | ok r => exact inv_resolveFn hcap r hinv
    | error e => exact inv_resolveFn hcap _ (inv_rejectFn hcap e hinv)
  | defaultResolve c =>
    exact inv_resolveFn hcap _ (inv_resolveFn hcap c hinv)
  | defaultReject c =>
    exact inv_resolveFn hcap _ (inv_rejectFn hcap c hinv)
  | resolver f' q' =>
    exact inv_resolveFn hcap _ (inv_resolveFn (by simpa [hAvoids] using hh) arg hinv)
  | rejecter f' q' =>
    exact inv_resolveFn hcap _ (inv_rejectFn (by simpa [hAvoids] using hh) arg hinv)

theorem inv_flagsPush {p : Nat} {st : Machine} (h : Inv p st) :
    Inv p { st with flags := st.flags ++ [false] } :=
  h

theorem inv_promiseResolveThenableJob {p q : Nat} (tk : ThenKind) {st : Machine}
    (hq : q ≠ p) (h : Inv p st) : Inv p (promiseResolveThenableJob q tk st) := by
  have h1 : Inv p { st with flags := st.flags ++ [false] } := inv_flagsPush h
  cases tk with
  | behavior b =>
    cases b with
    | callRes v => exact inv_resolveFn hq v h1
    | callRej v => exact inv_rejectFn hq v h1
    | throwE e => exact inv_rejectFn hq e h1
    | inert => exact h1
  | promiseThen target =>
    exact inv_thenCall target _ _ (by simpa [haAvoids, hAvoids] using hq)
      (by simpa [haAvoids, hAvoids] using hq) h1

theorem inv_execJob {p : Nat} (j : Job) {st : Machine}
    (hj : jAvoids p j) (h : Inv p st) : Inv p (execJob j st) := by
  cases j with
  | reactionJob cap hh arg => exact inv_promiseReactionJob arg hj.1 hj.2 h
  | thenableJob q r tk => exact inv_promiseResolveThenableJob tk hj h

theorem inv_clearQueue {p : Nat} {st : Machine} (h : Inv p st) :
    Inv p { st with queue := [], running := false } := by
  obtain ⟨hpend, hq, ho, hu⟩ := h
  exact ⟨hpend, by simp [jAvoids], ho, hu⟩

theorem inv_drainLoop {p : Nat} (fuel i : Nat) {st : Machine} (h : Inv p st) :
    Inv p (drainLoop fuel i st) := by
  induction fuel generalizing i st with
  | zero => exact h
  | succ f ih =>
    simp only [drainLoop]
    cases hg : lget? st.queue i with
    | some j =>
      exact ih (i + 1) (inv_execJob j (h.2.1 j (mem_of_lget? hg)) h)
    | none => exact inv_clearQueue h

theorem inv_queueRun {p : Nat} (fuel : Nat) {st : Machine} (h : Inv p st) :
    Inv p (queueRun fuel st) := by
  simp only [queueRun]
  split
  · exact h
  · exact inv_drainLoop fuel 0 h

theorem inv_fireAsap {p : Nat} (fuel : Nat) {st : Machine} (h : Inv p st) :
    Inv p (fireAsap fuel st) := by
  simp only [fireAsap]
  split
  · exact h
  · exact inv_queueRun fuel h

theorem inv_promiseConstructor {p : Nat} (ex : ExecutorSpec) {st : Machine}
    (h : Inv p st) : Inv p (promiseConstructor ex st).2 := by
  have hp : p < st.objects.length := lt_length_of_state_ne_absent (by rw [h.1]; simp)
  obtain ⟨hpend, hque, hobj, huser⟩ := h
  cases ex with
  | notCallable v =>
    refine ⟨?_, hque, ?_, huser⟩
    · refine Eq.trans (congrArg PromiseRec.state (getPromiseRec_congr ?_)) hpend
      simp only [promiseConstructor, setPromiseRec]
      rw [lget?_lset_ne _ _ _ _ (by omega), lget?_append_lt _ _ _ hp]
    · intro o hob
      simp only [promiseConstructor, setPromiseRec] at hob
      rcases mem_of_mem_lset hob with hob | rfl
      · rcases List.mem_append.mp hob with hob | hob
        · exact hobj o hob
        · rcases List.mem_singleton.mp hob with rfl
          simp [oAvoids]
      · simp [oAvoids]
  | callable b =>
    have hInvPre : Inv p
        { setPromiseRec (setPromiseRec
            { st with objects := st.objects ++ [.promiseObj ⟨.absent, none, none, none⟩] }
            st.objects.length ⟨.undefWritten, none, none, none⟩)
            st.objects.length ⟨.pending, none, some [], some []⟩ with
          flags := st.flags ++ [false],
          userPairs := st.userPairs ++ [⟨st.flags.length, st.objects.length⟩] } := by
      refine ⟨?_, hque, ?_, ?_⟩
      · refine Eq.trans (congrArg PromiseRec.state (getPromiseRec_congr ?_)) hpend
        simp only [setPromiseRec]
        exact lget?_alloc_write st.objects _ _ _ p hp
      · intro o hob
        simp only [setPromiseRec] at hob
        rcases mem_of_mem_lset hob with hob | rfl
        · rcases mem_of_mem_lset hob with hob | rfl
          · rcases List.mem_append.mp hob with hob | hob
            · exact hobj o hob
            · rcases List.mem_singleton.mp hob with rfl
              simp [oAvoids]
          · simp [oAvoids]
        · simp [oAvoids]
      · intro cap hc
        rcases List.mem_append.mp hc with hc | hc
        · exact huser cap hc
        · rcases List.mem_singleton.mp hc with rfl
          simp
          omega
    have hpost := @inv_foldl_pairCalls p ⟨st.flags.length, st.objects.length⟩
      (by simp; omega) b.actions _ hInvPre
    cases hta : b.throwsAfter with
    | some e => simpa only [promiseConstructor, hta] using hpost
    | none => simpa only [promiseConstructor, hta] using hpost

theorem haAvoids_toArg (p : Nat) (u : UserHandler) : haAvoids p u.toArg := by
  cases u with
  | ufun f => simp [UserHandler.toArg, haAvoids, hAvoids]
  | unotCallable v => simp [UserHandler.toArg, haAvoids]

theorem inv_execCmd {p : Nat} (c : Cmd) {st : Machine} (h : Inv p st) :
    Inv p (execCmd c st) := by
  cases c with
  | construct ex => exact inv_promiseConstructor ex h
  | callThen t onF onR =>
    exact inv_thenCall t _ _ (haAvoids_toArg p onF) (haAvoids_toArg p onR) h
  | callAll it =>
    simp only [execCmd, promiseAll]
    exact inv_newPromiseCapability h
  | callStaticReject r =>
    have hp : p < st.objects.length := lt_length_of_state_ne_absent (by rw [h.1]; simp)
    have hcap : (newPromiseCapability st).1.pIdx = st.objects.length := rfl
    simp only [execCmd, promiseStaticReject]
    exact inv_rejectFn (by rw [hcap]; omega) r (inv_newPromiseCapability h)
  | lateCall i pc =>
    simp only [execCmd]
    cases hg : lget? st.userPairs i with
    | some cap => exact inv_pairCallRun (h.2.2.2 cap (mem_of_lget? hg)) pc h
    | none => exact h
  | asapFire fuel => exact inv_fireAsap fuel h

/-- `Inv` is preserved by every sequence of public-surface steps. -/
theorem inv_execCmds {p : Nat} (cs : List Cmd) {st : Machine} (h : Inv p st) :
    Inv p (execCmds cs st) := by
  induction cs generalizing st with
  | nil => exact h
  | cons c t ih => exact ih (inv_execCmd c h)

/-! #### Heap growth: operations never shrink the object heap -/

theorem objLen_trigger (rs : List Reaction) (arg : Value) (st : Machine) :
    (triggerPromiseReactions rs arg st).objects.length = st.objects.length := by
  rw [trigger_objects]

theorem objLen_fulfill (q : Nat) (v : Value) (st : Machine) :
    (fulfillPromise q v st).objects.length = st.objects.length := by
  simp only [fulfillPromise]
  split
  · rfl
  · rw [objLen_trigger]
    simp only [setPromiseRec]
    exact length_lset _ _ _

theorem objLen_reject (q : Nat) (v : Value) (st : Machine) :
    (rejectPromise q v st).objects.length = st.objects.length := by
  simp only [rejectPromise]
  split
  · rfl
  · rw [objLen_trigger]
    simp only [setPromiseRec]
    exact length_lset _ _ _

theorem objLen_enqueue (j : Job) (st : Machine) :
    (enqueueJob j st).objects.length = st.objects.length := by
  rw [(queueOnly_enqueueJob j st).1]

theorem objLen_resolveFn (f q : Nat) (v : Value) (st : Machine) :
    (resolveFn f q v st).objects.length = st.objects.length := by
  simp only [resolveFn]
  split
  · rfl
  · split
    · rw [objLen_reject]; rfl
    · split
      · rw [objLen_fulfill]; rfl
      · split
        · rw [objLen_reject]; rfl
        · rw [objLen_fulfill]; rfl
        · rw [objLen_enqueue]; rfl

theorem objLen_rejectFn (f q : Nat) (v : Value) (st : Machine) :
    (rejectFn f q v st).objects.length = st.objects.length := by
  simp only [rejectFn]
  split
  · rfl
  · rw [objLen_reject]; rfl

theorem objLen_pairCall (cap : Cap) (c : PairCall) (st : Machine) :
    (pairCallRun cap c st).objects.length = st.objects.length := by
  cases c with
  | res v => exact objLen_resolveFn _ _ v st
  | rej v => exact objLen_rejectFn _ _ v st

theorem objLen_foldl_pairCalls (l : List PairCall) (cap : Cap) (st : Machine) :
    ((l.foldl (fun s a => pairCallRun cap a s) st)).objects.length = st.objects.length := by
  induction l generalizing st with
  | nil => rfl
  | cons a t ih => rw [List.foldl_cons, ih, objLen_pairCall]

theorem objLen_newPromiseCapability (st : Machine) :
    (newPromiseCapability st).2.objects.length = st.objects.length + 1 := by
  simp only [newPromiseCapability, setPromiseRec]
  rw [length_lset, length_lset]
  simp

theorem objLen_performPromiseThen (t : Nat) (onF onR : HandlerArg) (cap : Cap) (st : Machine) :
    (performPromiseThen t onF onR cap st).objects.length = st.objects.length := by
  simp only [performPromiseThen]
  split
  · simp only [setPromiseRec]; exact length_lset _ _ _
  · exact objLen_enqueue _ _
  · exact objLen_enqueue _ _
  · rfl

theorem objLen_thenCall (t : Nat) (onF onR : HandlerArg) (st : Machine) :
    (thenCall t onF onR st).2.objects.length = st.objects.length + 1 := by
  simp only [thenCall]
  rw [objLen_performPromiseThen, objLen_newPromiseCapability]

theorem objLen_reactionJob (cap : Cap) (h : Handler) (arg : Value) (st : Machine) :
    (promiseReactionJob cap h arg st).objects.length = st.objects.length := by
  cases h with
  | user f =>
    simp only [promiseReactionJob]
    cases f arg with
    | ok r => exact objLen_resolveFn _ _ r st
    | error e => rw [objLen_resolveFn, objLen_rejectFn]
  | defaultResolve c => simp only [promiseReactionJob]; rw [objLen_resolveFn, objLen_resolveFn]
  | defaultReject c => simp only [promiseReactionJob]; rw [objLen_resolveFn, objLen_rejectFn]
  | resolver f' q' => simp only [promiseReactionJob]; rw [objLen_resolveFn, objLen_resolveFn]
  | rejecter f' q' => simp only [promiseReactionJob]; rw [objLen_resolveFn, objLen_rejectFn]

theorem objLen_thenableJob (q : Nat) (tk : ThenKind) (st : Machine) :
    st.objects.length ≤ (promiseResolveThenableJob q tk st).objects.length := by
  cases tk with
  | behavior b =>
    cases b with
    | callRes v => simp only [promiseResolveThenableJob]; rw [objLen_resolveFn]
    | callRej v => simp only [promiseResolveThenableJob]; rw [objLen_rejectFn]
    | throwE e => simp only [promiseResolveThenableJob]; rw [objLen_rejectFn]
    | inert => simp [promiseResolveThenableJob]
  | promiseThen target =>
    simp only [promiseResolveThenableJob]
    rw [objLen_thenCall]
    simp

theorem objLen_execJob (j : Job) (st : Machine) :
    st.objects.length ≤ (execJob j st).objects.length := by
  cases j with
  | reactionJob cap h arg => rw [execJob, objLen_reactionJob]
  | thenableJob q r tk => exact objLen_thenableJob q tk st

theorem objLen_drainLoop (fuel i : Nat) (st : Machine) :
    st.objects.length ≤ (drainLoop fuel i st).objects.length := by
  induction fuel generalizing i st with
  | zero => exact Nat.le_refl _
  | succ f ih =>
    simp only [drainLoop]
    cases lget? st.queue i with
    | some j => exact Nat.le_trans (objLen_execJob j st) (ih (i + 1) (execJob j st))
    | none => exact Nat.le_refl _

theorem objLen_queueRun (fuel : Nat) (st : Machine) :
    st.objects.length ≤ (queueRun fuel st).objects.length := by
  simp only [queueRun]
  split
  · exact Nat.le_refl _
  · exact objLen_drainLoop fuel 0 { st with running := true }

theorem objLen_fireAsap (fuel : Nat) (st : Machine) :
    st.objects.length ≤ (fireAsap fuel st).objects.length := by
  simp only [fireAsap]
  split
  · exact Nat.le_refl _
  · exact objLen_queueRun fuel { st with scheduled := st.scheduled - 1 }

theorem objLen_promiseConstructor (ex : ExecutorSpec) (st : Machine) :
    (promiseConstructor ex st).2.objects.length = st.objects.length + 1 := by
  cases ex with
  | notCallable v =>
    simp only [promiseConstructor, setPromiseRec]
    rw [length_lset]
    simp
  | callable b =>
    cases hta : b.throwsAfter with
    | some e =>
      simp only [promiseConstructor, hta]
      rw [objLen_foldl_pairCalls]
      simp only [setPromiseRec]
      rw [length_lset, length_lset]
      simp
    | none =>
      simp only [promiseConstructor, hta]
      rw [objLen_foldl_pairCalls]
      simp only [setPromiseRec]
      rw [length_lset, length_lset]
      simp

theorem objLen_execCmd (c : Cmd) (st : Machine) :
    st.objects.length ≤ (execCmd c st).objects.length := by
  cases c with
  | construct ex => rw [execCmd, objLen_promiseConstructor]; simp
  | callThen t onF onR => rw [execCmd, objLen_thenCall]; simp
  | callAll it =>
    simp only [execCmd, promiseAll]
    rw [objLen_newPromiseCapability]
    simp
  | callStaticReject r =>
    simp only [execCmd, promiseStaticReject]
    rw [objLen_rejectFn, objLen_newPromiseCapability]
    simp
  | lateCall i pc =>
    simp only [execCmd]
    cases lget? st.userPairs i with
    | some cap => rw [objLen_pairCall]
    | none => exact Nat.le_refl _
  | asapFire fuel => exact objLen_fireAsap fuel st

/-! #### Reachable machines mention only allocated heap slots -/

/-- Every heap index at or beyond the allocation frontier is
unsettleable: the machine holds no reference to promises that do not
exist yet. -/
def FreshOK (st : Machine) : Prop :=
  ∀ p, st.objects.length ≤ p → Avoids p st

theorem avoids_performPromiseThen {p : Nat} (t : Nat) (onF onR : HandlerArg) (cap : Cap)
    {st : Machine} (hcap : cap.pIdx ≠ p)
    (honF : haAvoids p onF) (honR : haAvoids p onR) (h : Avoids p st) :
    Avoids p (performPromiseThen t onF onR cap st) := by
  have hchooseF : hAvoids p
      (selectHandler onF (.defaultResolve ((getPromiseRec st t).result.getD .undef))) := by
    cases onF with
    | func hh => exact honF
    | notCallable v => simp [selectHandler, hAvoids]
  have hchooseR : hAvoids p
      (selectHandler onR (.defaultReject ((getPromiseRec st t).result.getD .undef))) := by
    cases onR with
    | func hh => exact honR
    | notCallable v => simp [selectHandler, hAvoids]
  simp only [performPromiseThen]
  split
  · refine avoids_setPromiseRec ?_ h
    constructor
    · intro r hr
      rcases List.mem_append.mp hr with hr | hr
      · exact (avoids_own_reactions h).1 r hr
      · rcases List.mem_singleton.mp hr with rfl
        exact ⟨hcap, hchooseF⟩
    · intro r hr
      rcases List.mem_append.mp hr with hr | hr
      · exact (avoids_own_reactions h).2 r hr
      · rcases List.mem_singleton.mp hr with rfl
        exact ⟨hcap, hchooseR⟩
  · exact avoids_enqueueJob ⟨hcap, hchooseF⟩ h
  · exact avoids_enqueueJob ⟨hcap, hchooseR⟩ h
  · exact h

theorem avoids_thenCall {p : Nat} (t : Nat) (onF onR : HandlerArg) {st : Machine}
    (hlen : st.objects.length ≠ p)
    (honF : haAvoids p onF) (honR : haAvoids p onR) (h : Avoids p st) :
    Avoids p (thenCall t onF onR st).2 := by
  have hcap : (newPromiseCapability st).1.pIdx = st.objects.length := rfl
  simp only [thenCall]
  exact avoids_performPromiseThen t onF onR _ (by rw [hcap]; exact hlen) honF honR
    (avoids_newPromiseCapability h)

theorem avoids_promiseReactionJob {p : Nat} {cap : Cap} {h : Handler} (arg : Value)
    {st : Machine} (hcap : cap.pIdx ≠ p) (hh : hAvoids p h) (hA : Avoids p st) :
    Avoids p (promiseReactionJob cap h arg st) := by
  cases h with
  | user f =>
    simp only [promiseReactionJob]
    cases f arg with
    | ok r => exact avoids_resolveFn r hcap hA
    | error e => exact avoids_resolveFn _ hcap (avoids_rejectFn e hcap hA)
  | defaultResolve c => exact avoids_resolveFn _ hcap (avoids_resolveFn c hcap hA)
  | defaultReject c => exact avoids_resolveFn _ hcap (avoids_rejectFn c hcap hA)
  | resolver f' q' =>
    exact avoids_resolveFn _ hcap (avoids_resolveFn arg (by simpa [hAvoids] using hh) hA)
  | rejecter f' q' =>
    exact avoids_resolveFn _ hcap (avoids_rejectFn arg (by simpa [hAvoids] using hh) hA)

theorem avoids_thenableJob_behavior {p q : Nat} (b : ThenBehavior) {st : Machine}
    (hq : q ≠ p) (h : Avoids p st) :
    Avoids p (promiseResolveThenableJob q (.behavior b) st) := by
  have h1 : Avoids p { st with flags := st.flags ++ [false] } := h
  cases b with
  | callRes v => exact avoids_resolveFn v hq h1
  | callRej v => exact avoids_rejectFn v hq h1
  | throwE e => exact avoids_rejectFn e hq h1
  | inert => exact h1

theorem avoids_thenableJob_promiseThen {p q : Nat} (target : Nat) {st : Machine}
    (hq : q ≠ p) (hlen : st.objects.length ≠ p) (h : Avoids p st) :
    Avoids p (promiseResolveThenableJob q (.promiseThen target) st) := by
  have h1 : Avoids p { st with flags := st.flags ++ [false] } := h
  exact avoids_thenCall target _ _ hlen
    (by simpa [haAvoids, hAvoids] using hq) (by simpa [haAvoids, hAvoids] using hq) h1

theorem avoids_execJob {p : Nat} (j : Job) {st : Machine}
    (hj : jAvoids p j) (hres : (execJob j st).objects.length ≤ p) (h : Avoids p st) :
    Avoids p (execJob j st) := by
  cases j with
  | reactionJob cap hh arg => exact avoids_promiseReactionJob arg hj.1 hj.2 h
  | thenableJob q r tk =>
    cases tk with
    | behavior b => exact avoids_thenableJob_behavior b hj h
    | promiseThen target =>
      refine avoids_thenableJob_promiseThen target hj ?_ h
      rw [execJob] at hres
      simp only [promiseResolveThenableJob] at hres
      rw [objLen_thenCall] at hres
      intro he
      simp at hres
      omega

theorem avoids_clearQueue {p : Nat} {st : Machine} (h : Avoids p st) :
    Avoids p { st with queue := [], running := false } := by
  obtain ⟨hq, ho, hu⟩ := h
  exact ⟨by simp [jAvoids], ho, hu⟩

theorem avoids_drainLoop {p : Nat} (fuel i : Nat) {st : Machine}
    (hres : (drainLoop fuel i st).objects.length ≤ p) (h : Avoids p st) :
    Avoids p (drainLoop fuel i st) := by
  induction fuel generalizing i st with
  | zero => exact h
  | succ f ih =>
    simp only [drainLoop] at hres ⊢
    cases hg : lget? st.queue i with
    | some j =>
      rw [hg] at hres
      have hj := h.1 j (mem_of_lget? hg)
      have hr1 : (execJob j st).objects.length ≤ p :=
        Nat.le_trans (objLen_drainLoop f (i + 1) (execJob j st)) hres
      exact ih (i + 1) hres (avoids_execJob j hj hr1 h)
    | none =>
      exact avoids_clearQueue h

theorem avoids_queueRun {p : Nat} (fuel : Nat) {st : Machine}
    (hres : (queueRun fuel st).objects.length ≤ p) (h : Avoids p st) :
    Avoids p (queueRun fuel st) := by
  simp only [queueRun] at hres ⊢
  split
  · exact h
  · rename_i hr
    rw [if_neg hr] at hres
    exact avoids_drainLoop fuel 0 hres h

theorem avoids_fireAsap {p : Nat} (fuel : Nat) {st : Machine}
    (hres : (fireAsap fuel st).objects.length ≤ p) (h : Avoids p st) :
    Avoids p (fireAsap fuel st) := by
  simp only [fireAsap] at hres ⊢
  split
  · exact h
  · rename_i hs
    rw [if_neg hs] at hres
    exact avoids_queueRun fuel hres h

theorem avoids_promiseConstructor {p : Nat} (ex : ExecutorSpec) {st : Machine}
    (hlen : st.objects.length ≠ p) (h : Avoids p st) :
    Avoids p (promiseConstructor ex st).2 := by
  obtain ⟨hque, hobj, huser⟩ := h
  cases ex with
  | notCallable v =>
    refine ⟨hque, ?_, huser⟩
    intro o hob
    simp only [promiseConstructor, setPromiseRec] at hob
    rcases mem_of_mem_lset hob with hob | rfl
    · rcases List.mem_append.mp hob with hob | hob
      · exact hobj o hob
      · rcases List.mem_singleton.mp hob with rfl
        simp [oAvoids]
    · simp [oAvoids]
  | callable b =>
    have hAvoidsPre : Avoids p
        { setPromiseRec (setPromiseRec
            { st with objects := st.objects ++ [.promiseObj ⟨.absent, none, none, none⟩] }
            st.objects.length ⟨.undefWritten, none, none, none⟩)
            st.objects.length ⟨.pending, none, some [], some []⟩ with
          flags := st.flags ++ [false],
          userPairs := st.userPairs ++ [⟨st.flags.length, st.objects.length⟩] } := by
      refine ⟨hque, ?_, ?_⟩
      · intro o hob
        simp only [setPromiseRec] at hob
        rcases mem_of_mem_lset hob with hob | rfl
        · rcases mem_of_mem_lset hob with hob | rfl
          · rcases List.mem_append.mp hob with hob | hob
            · exact hobj o hob
            · rcases List.mem_singleton.mp hob with rfl
              simp [oAvoids]
          · simp [oAvoids]
        · simp [oAvoids]
      · intro cap hc
        rcases List.mem_append.mp hc with hc | hc
        · exact huser cap hc
        · rcases List.mem_singleton.mp hc with rfl
          simpa using hlen
    have hpost := @avoids_foldl_pairCalls p ⟨st.flags.length, st.objects.length⟩
      b.actions _ (by simpa using hlen) hAvoidsPre
    cases hta : b.throwsAfter with
    | some e => simpa only [promiseConstructor, hta] using hpost
    | none => simpa only [promiseConstructor, hta] using hpost

theorem avoids_execCmd {p : Nat} (c : Cmd) {st : Machine}
    (hres : (execCmd c st).objects.length ≤ p) (h : Avoids p st) :
    Avoids p (execCmd c st) := by
  cases c with
  | construct ex =>
    refine avoids_promiseConstructor ex ?_ h
    rw [execCmd, objLen_promiseConstructor] at hres
    omega
  | callThen t onF onR =>
    refine avoids_thenCall t _ _ ?_ (haAvoids_toArg p onF) (haAvoids_toArg p onR) h
    rw [execCmd, objLen_thenCall] at hres
    omega
  | callAll it =>
    simp only [execCmd, promiseAll]
    exact avoids_newPromiseCapability h
  | callStaticReject r =>
    simp only [execCmd, promiseStaticReject] at hres ⊢
    rw [objLen_rejectFn, objLen_newPromiseCapability] at hres
    have hcap : (newPromiseCapability st).1.pIdx = st.objects.length := rfl
    refine avoids_rejectFn r ?_ (avoids_newPromiseCapability h)
    rw [hcap]
    omega
  | lateCall i pc =>
    simp only [execCmd]
    cases hg : lget? st.userPairs i with
    | some cap => exact avoids_pairCallRun pc (h.2.2 cap (mem_of_lget? hg)) h
    | none => exact h
  | asapFire fuel => exact avoids_fireAsap fuel hres h

theorem freshOK_execCmd (c : Cmd) {st : Machine} (h : FreshOK st) :
    FreshOK (execCmd c st) := by
  intro p hp
  have hp0 : st.objects.length ≤ p := Nat.le_trans (objLen_execCmd c st) hp
  exact avoids_execCmd c hp (h p hp0)

theorem freshOK_execCmds (cs : List Cmd) {st : Machine} (h : FreshOK st) :
    FreshOK (execCmds cs st) := by
  induction cs generalizing st with
  | nil => exact h
  | cons c t ih => exact ih (freshOK_execCmd c h)

theorem freshOK_initMachine : FreshOK initMachine := by
  intro p _
  refine ⟨?_, ?_, ?_⟩ <;> intro x hx <;> simp [initMachine] at hx

/-- The promise freshly built by `newPromiseCapability` is pending. -/
theorem newPromiseCapability_pending (st : Machine) :
    getPromiseRec (newPromiseCapability st).2 st.objects.length
      = ⟨.pending, none, some [], some []⟩ := by
  unfold getPromiseRec
  simp only [newPromiseCapability, setPromiseRec]
  rw [lget?_lset_self]
  rw [length_lset]
  simp

/-- C10: `Promise.all` builds a fresh capability, drops its resolving
pair, ignores its iterable argument entirely (first conjunct: the result
is literally independent of the iterable), and returns the capability's
promise.  Since the machine retains no reference through which that
promise could be settled, it is still pending after **every** sequence of
further public-surface steps — constructions with arbitrary executors,
`then` calls anywhere (including on the `all` promise itself), static
combinators, calls on retained resolving pairs, and any number of queue
drains — starting from any machine reachable from process start. -/
theorem c10_all_promise_never_settles (iterable : List Value) (pre post : List Cmd) :
    (∀ it2 : List Value, promiseAll iterable (execCmds pre initMachine)
        = promiseAll it2 (execCmds pre initMachine)) ∧
    (getPromiseRec
        (execCmds post (promiseAll iterable (execCmds pre initMachine)).2)
        (promiseAll iterable (execCmds pre initMachine)).1).state = PState.pending := by
  constructor
  · intro it2; rfl
  · have hfresh : FreshOK (execCmds pre initMachine) :=
      freshOK_execCmds pre freshOK_initMachine
    have hidx : (promiseAll iterable (execCmds pre initMachine)).1
        = (execCmds pre initMachine).objects.length := rfl
    have hsnd : (promiseAll iterable (execCmds pre initMachine)).2
        = (newPromiseCapability (execCmds pre initMachine)).2 := rfl
    have hA : Avoids (execCmds pre initMachine).objects.length (execCmds pre initMachine) :=
      hfresh _ (Nat.le_refl _)
    have hInv : Inv (execCmds pre initMachine).objects.length
        (newPromiseCapability (execCmds pre initMachine)).2 := by
      constructor
      · rw [newPromiseCapability_pending]
      · exact avoids_newPromiseCapability hA
    rw [hidx, hsnd]
    exact (inv_execCmds post hInv).1

end ES6Promise
